import Mathlib

/-! Shallow embedding of `xlstr.h`: the classes `xl_str` and `xl_str_collection`.

An `xl_str` wraps one NUL-terminated C string.  Its content (the bytes before the
terminating `'\0'`) is modelled as a `List Char`; the terminator is implicit, so
reading at or after the end of the list is reading the sentinel.  A `char *` that
points into the buffer of an `xl_str` is modelled by its offset from `this->str`.

`while (true)` loops are modelled by a pass function (one execution of the loop
body) that is iterated under a fuel bound: the result `none` means that the loop
has not reached its `break` within the given number of passes.

Byte counts that the source computes in `size_t` are taken modulo `SIZE_MAX + 1`.  A call
that divides by zero, writes past the block it allocated, or reads through a pointer that
`realloc` has invalidated has a `Fault` for its `Outcome` instead of a value.
-/

/-- Content of an `xl_str`: the characters before the terminating NUL. -/
abbrev Content := List Char

/-! ## libc primitives used by the header -/

/-- The libc function `strstr`: offset of the leftmost occurrence of `needle` in `hay`
(`none` for a null result).  An empty `needle` is found at offset 0. -/
def strstr (hay needle : Content) : Option Nat :=
  if needle.isPrefixOf hay then some 0
  else match hay with
    | [] => none
    | _ :: tl => (strstr tl needle).map (· + 1)

/-- The libc function `isdigit` ("C" locale): the ten decimal digits. -/
def isdigit (c : Char) : Bool := decide ('0' ≤ c ∧ c ≤ '9')

/-- The libc function `isxdigit` ("C" locale): decimal digits and the letters a-f, A-F. -/
def isxdigit (c : Char) : Bool :=
  decide (('0' ≤ c ∧ c ≤ '9') ∨ ('a' ≤ c ∧ c ≤ 'f') ∨ ('A' ≤ c ∧ c ≤ 'F'))

/-- The libc function `isspace` ("C" locale): space, `\t`, `\n`, `\v`, `\f` and `\r`. -/
def isspace (c : Char) : Bool :=
  c = ' ' || c = '\t' || c = '\n' || c = Char.ofNat 11 || c = Char.ofNat 12 || c = '\r'

/-- The terminating byte `'\0'` of a C string (the sentinel). -/
def NUL : Char := Char.ofNat 0

/-- The C expression `a % b` on `size_t`; it is undefined for `b = 0`, which is the
result `none`. -/
def sizeMod (a b : Nat) : Option Nat :=
  if b = 0 then none else some (a % b)

/-- The greatest value of `size_t` (64 bits): arithmetic on `size_t` is taken modulo
`SIZE_MAX + 1`. -/
def SIZE_MAX : Nat := 2 ^ 64 - 1

/-- What keeps a call from returning a value. -/
inductive Fault where
  /-- The expression `i % 0` is evaluated. -/
  | divByZero
  /-- A byte is written past the end of the block that `malloc` returned. -/
  | overrun
  /-- The bytes of `str2` are read after `realloc` has released or grown the block that
  `str2` points into. -/
  | staleRead
  deriving DecidableEq

/-- The outcome of a call: the content (or buffer) of the value it produces, or a fault. -/
inductive Outcome where
  | value (bytes : List Char)
  | fault (f : Fault)
  deriving DecidableEq

/-! ### Buffers

The methods `concat` and `operator+=` are modelled on the bytes of the buffers, the
terminator included: a buffer is the list of its bytes. -/

/-- The buffer of a C string with the given content: the content and its terminator. -/
def cstr (content : Content) : List Char := content ++ [NUL]

/-- The libc function `strlen`: the number of bytes before the first NUL. -/
def strlen : List Char → Nat
  | [] => 0
  | c :: cs => if c = NUL then 0 else strlen cs + 1

/-- The libc call `memcpy(dst + off, src, n)`: bytes `off .. off + n - 1` of `dst` become
the first `n` bytes of `src`. -/
def memcpy (dst : List Char) (off : Nat) (src : List Char) (n : Nat) : List Char :=
  dst.take off ++ src.take n ++ dst.drop (off + n)

/-- The libc call `malloc(n)`: `n` bytes that are not initialised; `junk` stands for their
indeterminate value. -/
def malloc (junk : Char) (n : Nat) : List Char := List.replicate n junk

/-- The libc call `realloc(buf, n)`: the old bytes (at most `n` of them), followed by
bytes that are not initialised. -/
def realloc (junk : Char) (buf : List Char) (n : Nat) : List Char :=
  buf.take n ++ List.replicate (n - buf.length) junk

/-! ## xl_str_collection -/

namespace xl_str_collection

/-- The method `xl_str_collection::zip`: joins the elements with `token`.  The first loop
of the source only sizes the buffer; the second one copies element `i` and then the
token for every `i < lastidx`, and the last element is copied after the loop. -/
def zip (self : List Content) (token : Content) : Content :=
  if self.length = 0 then []
  else
    let lastidx := self.length - 1
    let newstr := (List.range lastidx).foldl
      (fun buf i => buf ++ self.getD i [] ++ token) []
    newstr ++ self.getD lastidx []

end xl_str_collection

/-! ## xl_str -/

namespace xl_str

/-- Loop variables of `xl_str::split`. -/
structure SplitState where
  /-- Offset of `startptr` from `this->str`. -/
  startptr : Nat
  /-- The collection built so far. -/
  tmpxlstrs : List Content
  deriving DecidableEq

/-- One pass of the `while (true)` body of `xl_str::split`: `Sum.inr` is the `break`
(the value returned), `Sum.inl` the state for the next pass. -/
def splitPass (str token : Content) (st : SplitState) : SplitState ⊕ List Content :=
  match strstr (str.drop st.startptr) token with
  | none => Sum.inr (st.tmpxlstrs ++ [str.drop st.startptr])
  | some off =>
      Sum.inl ⟨st.startptr + off + token.length,
        st.tmpxlstrs ++ [(str.drop st.startptr).take off]⟩

/-- The loop of `xl_str::split`, run for at most `fuel` passes. -/
def splitLoop (str token : Content) : Nat → SplitState → Option (List Content)
  | 0, _ => none
  | fuel + 1, st =>
    match splitPass str token st with
    | Sum.inr out => some out
    | Sum.inl st1 => splitLoop str token fuel st1

/-- The method `xl_str::split`, run for at most `fuel` passes of its loop. -/
def split (fuel : Nat) (str token : Content) : Option (List Content) :=
  splitLoop str token fuel ⟨0, []⟩

/-- The method `xl_str::replace`: `this->split(searchstr).zip(replacestr)`. -/
def replace (fuel : Nat) (str searchstr replacestr : Content) : Option Content :=
  (split fuel str searchstr).map (fun xs => xl_str_collection.zip xs replacestr)

/-- The method `xl_str::slice`. -/
def slice (str : Content) (start endpos : Nat) : Content :=
  let end1 := if endpos > str.length then str.length else endpos
  if start ≥ str.length ∨ end1 ≤ start then []
  else (str.drop start).take (end1 - start)

/-- Loop variables of `xl_str::lastindexof` (pointers as offsets, `none` for null). -/
structure LastState where
  lastidxptr : Option Nat
  startcmpptr : Nat
  deriving DecidableEq

/-- One pass of the `while (true)` body of `xl_str::lastindexof`. -/
def lastindexofPass (str substr : Content) (st : LastState) : LastState ⊕ Option Nat :=
  match strstr (str.drop st.startcmpptr) substr with
  | some off => Sum.inl ⟨some (st.startcmpptr + off), st.startcmpptr + 1⟩
  | none => Sum.inr st.lastidxptr

/-- The loop of `xl_str::lastindexof`, run for at most `fuel` passes; the result is the
final value of `lastidxptr`. -/
def lastindexofLoop (str substr : Content) : Nat → LastState → Option (Option Nat)
  | 0, _ => none
  | fuel + 1, st =>
    match lastindexofPass str substr st with
    | Sum.inr r => some r
    | Sum.inl st1 => lastindexofLoop str substr fuel st1

/-- The method `xl_str::lastindexof`: `-1` for a null `lastidxptr`, else its offset. -/
def lastindexof (fuel : Nat) (str substr : Content) : Option Int :=
  (lastindexofLoop str substr fuel ⟨none, 0⟩).map fun
    | none => -1
    | some i => (i : Int)

/-- The method `xl_str::isint`. -/
def isint (str : Content) : Bool :=
  let startptr := if str.head? = some '-' then str.tail else str
  if startptr.isEmpty then false
  else startptr.all isdigit

/-- The first `while` loop of `xl_str::isfloat` (the mantissa): `none` is `return false`,
`some rest` is the position where the loop stops (end, or an exponent marker). -/
def mantissaLoop (predicate : Char → Bool) (explower expupper : Char) :
    Content → Bool → Option Content
  | [], _ => some []
  | c :: cs, hasdecimalpoint =>
    if c = explower ∨ c = expupper then some (c :: cs)
    else if c = '.' then
      if hasdecimalpoint then none
      else mantissaLoop predicate explower expupper cs true
    else if !predicate c then none
    else mantissaLoop predicate explower expupper cs hasdecimalpoint

/-- The second `while` loop of `xl_str::isfloat` (the exponent), with its `return true`. -/
def exponentLoop (predicate : Char → Bool) : Content → Bool → Bool
  | [], _ => true
  | c :: cs, hasdecimalpoint =>
    if c = '.' then
      if hasdecimalpoint then false
      else exponentLoop predicate cs true
    else if !predicate c then false
    else exponentLoop predicate cs hasdecimalpoint

/-- The method `xl_str::isfloat`. -/
def isfloat (str : Content) : Bool :=
  let ptr0 := if str.head? = some '-' then str.tail else str
  let hashexnote := strstr ptr0 ['0', 'x'] = some 0 || strstr ptr0 ['0', 'X'] = some 0
  let ptr1 := if hashexnote then ptr0.drop 2 else ptr0
  let predicate := if hashexnote then isxdigit else isdigit
  let explower := if hashexnote then 'p' else 'e'
  let expupper := if hashexnote then 'P' else 'E'
  match ptr1 with
  | [] => false
  | c :: _ =>
    if c = explower ∨ c = expupper then false
    else
      match mantissaLoop predicate explower expupper ptr1 false with
      | none => false
      | some [] => true
      | some (_ :: ptr2) =>
        match ptr2 with
        | [] => false
        | d :: ptr3 =>
          exponentLoop predicate (if d = '-' then ptr3 else ptr2) false

/-- The constructor `xl_str(const char *str2)`, as the buffer that the new value owns. -/
def ofCstr (junk : Char) (str2 : List Char) : List Char :=
  let memcount := strlen str2 + 1
  memcpy (malloc junk memcount) 0 str2 memcount

/-- The method `xl_str::size` on the buffer of the value. -/
def size (str : List Char) : Nat := strlen str

/-- The content of a value, read from its buffer: the bytes before the terminator. -/
def content (str : List Char) : Content := str.take (strlen str)

/-- The method `xl_str::concat(const char *str2)` on buffers: the buffer of the value
that is returned. -/
def concat (junk : Char) (str str2 : List Char) : List Char :=
  let memcount := strlen str + strlen str2 + 1
  let newstr := malloc junk memcount
  let newstr := memcpy newstr 0 str (strlen str)
  let newstr := memcpy newstr (strlen str) str2 (strlen str2 + 1)
  ofCstr junk newstr

/-- The argument `str2` of `operator+=`: a C string in a block of its own, or a pointer
into the buffer of the receiver (`this->str + off`, as in `v += v()` and `v += v`). -/
inductive StrArg where
  | separate (buf : List Char)
  | view (off : Nat)
  deriving DecidableEq

/-- The bytes that `str2` points to when the call starts, `str` being the buffer of the
receiver. -/
def StrArg.bytes (str : List Char) : StrArg → List Char
  | StrArg.separate buf => buf
  | StrArg.view off => str.drop off

/-- The method `xl_str::operator+=(const char *str2)` on buffers: the buffer `this->str`
after the call.  The byte count is computed first, then `realloc` replaces the block of
the receiver, and only then `strlen(str2)` and `memcpy` read `str2`.  When `str2` points
into the receiver that read is undefined: the old block has been released if `realloc`
moved it, and if the block was grown in place the source `[off, oldstrlen]` of `memcpy`
overlaps its destination, which starts at `oldstrlen`. -/
def operatorPlusAssign (junk : Char) (str : List Char) (str2 : StrArg) : Outcome :=
  let memcount := strlen str + strlen (str2.bytes str) + 1
  let oldstrlen := strlen str
  let newblock := realloc junk str memcount
  match str2 with
  | StrArg.view _ => Outcome.fault Fault.staleRead
  | StrArg.separate buf =>
    Outcome.value (memcpy newblock oldstrlen buf (strlen buf + 1))

/-- The method `xl_str::operator[]`. -/
def operatorIndex (str : Content) (i : Nat) : Char :=
  if i ≥ str.length then NUL else str.getD i NUL

/-- The method `xl_str::endswith(const char *substr)`; `strcmp(p, q) == 0` is equality of
the two strings. -/
def endswith (str substr : Content) : Bool :=
  if str.length < substr.length then false
  else
    let startcmpptr := str.length - substr.length
    if str.drop startcmpptr = substr then true else false

/-- The method `xl_str::includes(const char *substr)`. -/
def includes (str substr : Content) : Bool :=
  (strstr str substr).isSome

/-- The method `xl_str::indexof(const char *substr)`. -/
def indexof (str substr : Content) : Int :=
  match strstr str substr with
  | none => -1
  | some idx => (idx : Int)

/-- The `for` loop of `padend` and `padstart`: `n` passes are left, `i` is the loop
index and `buf` holds the bytes written so far.  A pass evaluates `i % padlen`
(`none` when that is a division by zero) and writes `padstr[i % padlen]`. -/
def padLoop (padstr : Content) (padlen : Nat) : Nat → Nat → Content → Option Content
  | 0, _, buf => some buf
  | n + 1, i, buf =>
    match sizeMod i padlen with
    | none => none
    | some k => padLoop padstr padlen n (i + 1) (buf ++ [padstr.getD k NUL])

/-- The method `xl_str::padend(size_t, const char *)`.  The block has
`memcount = targetlen + 1` bytes, computed in `size_t`.  The method writes the bytes
`0 .. targetlen - 1` (the receiver, then one byte per pass of the loop) and the terminator
at `memcount - 1`; these lie in the block exactly when `targetlen < memcount`, and the
outcome is an overrun otherwise.  A write past the block does not stop the run, a
division by zero does: it is the outcome whenever a pass evaluates `i % 0`. -/
def padend (str : Content) (targetlen : Nat) (padstr : Content) : Outcome :=
  if targetlen ≤ str.length then Outcome.value str
  else
    let memcount := (targetlen + 1) % (SIZE_MAX + 1)
    let padlen := padstr.length
    match padLoop padstr padlen (targetlen - str.length) 0 str with
    | none => Outcome.fault Fault.divByZero
    | some newstr =>
      if targetlen < memcount then Outcome.value newstr
      else Outcome.fault Fault.overrun

/-- The method `xl_str::padstart(size_t, const char *)`.  The block has
`memcount = targetlen + 1` bytes, computed in `size_t`.  The method writes the bytes
`0 .. targetlen - 1` (one byte per pass of the loop, then the receiver) and the
terminator at `targetlen`; these lie in the block exactly when `targetlen < memcount`,
and the outcome is an overrun otherwise.  A write past the block does not stop the run, a
division by zero does: it is the outcome whenever a pass evaluates `i % 0`. -/
def padstart (str : Content) (targetlen : Nat) (padstr : Content) : Outcome :=
  if targetlen ≤ str.length then Outcome.value str
  else
    let memcount := (targetlen + 1) % (SIZE_MAX + 1)
    let padlen := padstr.length
    match padLoop padstr padlen (targetlen - str.length) 0 [] with
    | none => Outcome.fault Fault.divByZero
    | some padding =>
      if targetlen < memcount then Outcome.value (padding ++ str)
      else Outcome.fault Fault.overrun

/-- The loop `while (count--)` of `xl_str::repeat`: one copy of the content is appended
in each pass. -/
def repeatLoop (str : Content) : Nat → Content → Content
  | 0, newstr => newstr
  | count + 1, newstr => repeatLoop str count (newstr ++ str)

/-- The method `xl_str::repeat(unsigned count)`; `count` is the value of an `unsigned`,
so it is below `2 ^ 32`.  The block has `memcount = strlen * count + 1` bytes, computed in
`size_t`.  The loop writes the bytes `0 .. strlen * count - 1` and the terminator goes to
`memcount - 1`; these lie in the block exactly when `strlen * count < memcount`, and the
outcome is an overrun otherwise. -/
def repeat_ (str : Content) (count : Nat) : Outcome :=
  let cpycount := str.length
  let memcount := (str.length * count + 1) % (SIZE_MAX + 1)
  let newstr := repeatLoop str count []
  if cpycount * count < memcount then Outcome.value newstr
  else Outcome.fault Fault.overrun

/-- The method `xl_str::operator*(unsigned count)`. -/
def operatorMul (str : Content) (count : Nat) : Outcome :=
  repeat_ str count

/-- The first loop of `xl_str::trim`, `while (*startptr != 0 && isspace(*startptr))
startptr++`: the number of bytes that `startptr` advances over the given string. -/
def trimStartLoop : Content → Nat
  | [] => 0
  | c :: cs => if isspace c then trimStartLoop cs + 1 else 0

/-- The second loop of `xl_str::trim`, `while (endptr >= this->str && isspace(*endptr))
endptr--`, started at `endptr = this->str + n - 1`: the final offset of `endptr`, which
is `-1` when the loop runs off the front of the string. -/
def trimEndLoop (str : Content) : Nat → Int
  | 0 => -1
  | n + 1 => if isspace (str.getD n NUL) then trimEndLoop str n else (n : Int)

/-- The method `xl_str::trim`. -/
def trim (str : Content) : Content :=
  let startptr : Int := (trimStartLoop str : Nat)
  let endptr : Int := trimEndLoop str str.length
  if startptr > endptr then []
  else
    let cpycount := (endptr - startptr + 1).toNat
    (str.drop startptr.toNat).take cpycount

/-- The loop of `xl_str::trimleft`, `while (isspace(*ptr)) ptr++`: the number of bytes
that `ptr` advances over the given string.  The loop has no test for the end of the
string: there `*ptr` is the terminator, and `none` is the case that the loop runs past it. -/
def trimleftLoop : Content → Option Nat
  | [] => if isspace NUL then none else some 0
  | c :: cs => if isspace c then (trimleftLoop cs).map (· + 1) else some 0

/-- The method `xl_str::trimleft`: `xl_str(ptr)` for the final `ptr`. -/
def trimleft (str : Content) : Option Content :=
  (trimleftLoop str).map (fun ptr => str.drop ptr)

/-- The loop of `xl_str::trimright`, `while (ptr - this->str >= 0 && isspace(*ptr)) ptr--`,
started at `ptr = this->str + n - 1`: the final offset of `ptr`, `-1` when the loop runs
off the front of the string. -/
def trimrightLoop (str : Content) : Nat → Int
  | 0 => -1
  | n + 1 => if isspace (str.getD n NUL) then trimrightLoop str n else (n : Int)

/-- The method `xl_str::trimright`. -/
def trimright (str : Content) : Content :=
  let ptr : Int := trimrightLoop str str.length
  let cpycount := (ptr + 1).toNat
  str.take cpycount

/-- The method `xl_str::isnumeric`. -/
def isnumeric (str : Content) : Bool :=
  isint str || isfloat str

end xl_str

/-! ## Occurrences of a substring -/

/-- The string `needle` occurs in `hay` at offset `i`: `hay[i .. i + size(needle)) = needle`. -/
def occursAt (needle hay : Content) (i : Nat) : Prop :=
  (hay.drop i).take needle.length = needle

instance (needle hay : Content) (i : Nat) : Decidable (occursAt needle hay i) := by
  unfold occursAt; infer_instance

/-- Leftmost occurrence, stated without `strstr`: the first offset `i` in `0 .. size(s)`
at which `search` occurs in `s`. -/
def leftmostOcc (search s : Content) : Option Nat :=
  (List.range (s.length + 1)).find? (fun i => decide (occursAt search s i))

/-- The replacement function `R` in the words of the specification, unfolded at most
`n` times: `R(s) = s` if `search` does not occur in `s`, and otherwise `R(s)` is the part
of `s` before the leftmost occurrence, then `repl`, then `R` of the part after it. -/
def replaceSpecN (search repl : Content) : Nat → Content → Content
  | 0, s => s
  | n + 1, s =>
    match leftmostOcc search s with
    | none => s
    | some i => s.take i ++ repl ++ replaceSpecN search repl n (s.drop (i + search.length))

/-- The function `R(s)` of the specification of `replace`.  Every occurrence of a non-empty
`search` consumes at least one character, so `size(s)` unfoldings reach the end. -/
def replaceSpec (search repl s : Content) : Content :=
  replaceSpecN search repl s.length s

/-- Position `i` holds the first byte of `s` that is not whitespace. -/
def firstNonSpace (s : Content) (i : Nat) : Prop :=
  i < s.length ∧ isspace (s.getD i NUL) = false ∧
    ∀ k, k < i → isspace (s.getD k NUL) = true

/-- Position `j` holds the last byte of `s` that is not whitespace. -/
def lastNonSpace (s : Content) (j : Nat) : Prop :=
  j < s.length ∧ isspace (s.getD j NUL) = false ∧
    ∀ k, k < s.length → j < k → isspace (s.getD k NUL) = true

/-! ## Facts about occurrences and `strstr` -/

theorem occursAt_zero (n h : Content) : occursAt n h 0 ↔ n.isPrefixOf h = true := by
  rw [List.isPrefixOf_iff_prefix, List.prefix_iff_eq_take]
  simp only [occursAt, List.drop_zero]
  exact eq_comm

theorem occursAt_succ (n h : Content) (c : Char) (i : Nat) :
    occursAt n (c :: h) (i + 1) ↔ occursAt n h i := by
  simp [occursAt]

theorem occursAt_le (n h : Content) (i : Nat) (hn : n ≠ []) (ho : occursAt n h i) :
    i + n.length ≤ h.length := by
  have h1 : ((h.drop i).take n.length).length = n.length := by rw [ho]
  have h2 : 0 < n.length := List.length_pos.mpr hn
  simp only [List.length_take, List.length_drop] at h1
  omega

theorem occursAt_split (n h : Content) (i : Nat) (ho : occursAt n h i) :
    h = h.take i ++ n ++ h.drop (i + n.length) := by
  have h1 : h.drop i = n ++ h.drop (i + n.length) := by
    conv_lhs => rw [← List.take_append_drop n.length (h.drop i)]
    rw [ho, List.drop_drop, Nat.add_comm]
  conv_lhs => rw [← List.take_append_drop i h, h1]
  simp

theorem strstr_nil (n : Content) (hn : n ≠ []) : strstr [] n = none := by
  cases n with
  | nil => exact absurd rfl hn
  | cons a n => simp [strstr, List.isPrefixOf]

theorem strstr_cons (c : Char) (h n : Content) :
    strstr (c :: h) n
      = if n.isPrefixOf (c :: h) then some 0 else (strstr h n).map (· + 1) := by
  rw [strstr]

/-- The function `strstr` finds an occurrence, and no occurrence starts before it. -/
theorem strstr_some (h n : Content) (k : Nat) (hs : strstr h n = some k) :
    occursAt n h k ∧ ∀ j, j < k → ¬ occursAt n h j := by
  induction h generalizing k with
  | nil =>
    rw [strstr] at hs
    split at hs
    · rename_i hp
      cases hs
      exact ⟨(occursAt_zero n []).mpr hp, fun j hj => absurd hj (Nat.not_lt_zero j)⟩
    · cases hs
  | cons c h ih =>
    rw [strstr_cons] at hs
    split at hs
    · rename_i hp
      cases hs
      exact ⟨(occursAt_zero n _).mpr hp, fun j hj => absurd hj (Nat.not_lt_zero j)⟩
    · rename_i hp
      cases hr : strstr h n with
      | none => rw [hr] at hs; cases hs
      | some k1 =>
        rw [hr] at hs
        cases hs
        obtain ⟨h1, h2⟩ := ih k1 hr
        refine ⟨(occursAt_succ n h c k1).mpr h1, ?_⟩
        intro j hj
        cases j with
        | zero => rw [occursAt_zero]; exact hp
        | succ j =>
          rw [occursAt_succ]
          have hj1 : j + 1 < k1 + 1 := hj
          exact h2 j (by omega)

/-- A null result of `strstr` means that there is no occurrence at all. -/
theorem strstr_none (h n : Content) (hs : strstr h n = none) (j : Nat) : ¬ occursAt n h j := by
  induction h generalizing j with
  | nil =>
    rw [strstr] at hs
    split at hs
    · cases hs
    · rename_i hp
      intro ho
      apply hp
      rw [← occursAt_zero]
      simpa [occursAt] using ho
  | cons c h ih =>
    rw [strstr_cons] at hs
    split at hs
    · cases hs
    · rename_i hp
      cases hr : strstr h n with
      | some k1 => rw [hr] at hs; cases hs
      | none =>
        cases j with
        | zero => rw [occursAt_zero]; exact hp
        | succ j => rw [occursAt_succ]; exact ih hr j

/-- Where there is an occurrence, `strstr` returns the leftmost one. -/
theorem strstr_of_occursAt (h n : Content) (i : Nat) (ho : occursAt n h i) :
    ∃ k, strstr h n = some k ∧ k ≤ i := by
  cases hs : strstr h n with
  | none => exact absurd ho (strstr_none h n hs i)
  | some k =>
    refine ⟨k, rfl, ?_⟩
    by_contra hlt
    exact (strstr_some h n k hs).2 i (by omega) ho

/-! ## Unfolding `zip` -/

theorem foldl_append_init (g : Nat → Content) (token : Content) (l : List Nat)
    (init : Content) :
    l.foldl (fun buf i => buf ++ g i ++ token) init
      = init ++ l.foldl (fun buf i => buf ++ g i ++ token) [] := by
  induction l generalizing init with
  | nil => simp
  | cons a l ih =>
    simp only [List.foldl_cons, List.nil_append]
    rw [ih (init ++ g a ++ token), ih (g a ++ token)]
    simp [List.append_assoc]

theorem zip_single (x token : Content) : xl_str_collection.zip [x] token = x := by
  simp [xl_str_collection.zip]

theorem zip_cons_cons (x y : Content) (rest : List Content) (token : Content) :
    xl_str_collection.zip (x :: y :: rest) token
      = x ++ token ++ xl_str_collection.zip (y :: rest) token := by
  simp only [xl_str_collection.zip, List.length_cons, Nat.add_sub_cancel]
  rw [if_neg (by omega), if_neg (by omega)]
  rw [List.range_succ_eq_map, List.foldl_cons, List.foldl_map]
  rw [foldl_append_init (fun i => (x :: y :: rest).getD (i + 1) [])]
  simp [List.append_assoc]

theorem splitLoop_shift (str token : Content) (fuel p : Nat) (acc : List Content) :
    xl_str.splitLoop str token fuel ⟨p, acc⟩
      = (xl_str.splitLoop (str.drop p) token fuel ⟨0, []⟩).map (acc ++ ·) := by
  induction fuel generalizing str p acc with
  | zero => simp [xl_str.splitLoop]
  | succ fuel ih =>
    simp only [xl_str.splitLoop, xl_str.splitPass, List.drop_zero, List.nil_append,
      Nat.zero_add]
    cases hs : strstr (str.drop p) token with
    | none => simp
    | some k =>
      simp only
      rw [ih str (p + k + token.length), ih (str.drop p) (k + token.length) [_]]
      simp [List.drop_drop, Option.map_map, Function.comp_def, Nat.add_assoc, Nat.add_comm]

theorem split_of_none (fuel : Nat) (s token : Content) (hs : strstr s token = none) :
    xl_str.split (fuel + 1) s token = some [s] := by
  simp [xl_str.split, xl_str.splitLoop, xl_str.splitPass, hs]

theorem split_of_some (fuel : Nat) (s token : Content) (k : Nat)
    (hs : strstr s token = some k) :
    xl_str.split (fuel + 1) s token
      = (xl_str.split fuel (s.drop (k + token.length)) token).map (s.take k :: ·) := by
  simp only [xl_str.split, xl_str.splitLoop, xl_str.splitPass, List.drop_zero, hs,
    List.nil_append, Nat.zero_add]
  rw [splitLoop_shift]
  simp

theorem split_ne_nil (fuel : Nat) (s token : Content) (xs : List Content)
    (h : xl_str.split fuel s token = some xs) : xs ≠ [] := by
  cases fuel with
  | zero => simp [xl_str.split, xl_str.splitLoop] at h
  | succ fuel =>
    cases hs : strstr s token with
    | none =>
      rw [split_of_none fuel s token hs] at h
      cases h
      simp
    | some k =>
      rw [split_of_some fuel s token k hs] at h
      cases hr : xl_str.split fuel (s.drop (k + token.length)) token with
      | none => rw [hr] at h; cases h
      | some ys => rw [hr] at h; cases h; simp

/-- With a non-empty token and more fuel than the content has characters, the loop of
`split` reaches its `break`, and joining the segments with the token gives the content. -/
theorem split_returns (token : Content) (ht : token ≠ []) (fuel : Nat) (s : Content)
    (hf : s.length < fuel) :
    ∃ xs, xl_str.split fuel s token = some xs ∧ xs ≠ [] ∧
      xl_str_collection.zip xs token = s := by
  induction fuel generalizing s with
  | zero => exact absurd hf (Nat.not_lt_zero _)
  | succ fuel ih =>
    cases hs : strstr s token with
    | none =>
      exact ⟨[s], split_of_none fuel s token hs, by simp, zip_single s token⟩
    | some k =>
      have hocc := (strstr_some s token k hs).1
      have hle := occursAt_le token s k ht hocc
      have hpos : 0 < token.length := List.length_pos.mpr ht
      have hlen : (s.drop (k + token.length)).length < fuel := by
        rw [List.length_drop]; omega
      obtain ⟨ys, hy, hne, hz⟩ := ih (s.drop (k + token.length)) hlen
      refine ⟨s.take k :: ys, ?_, by simp, ?_⟩
      · rw [split_of_some fuel s token k hs, hy]; rfl
      · cases ys with
        | nil => exact absurd rfl hne
        | cons y rest =>
          rw [zip_cons_cons, hz]
          exact (occursAt_split token s k hocc).symm

theorem occursAt_of_infix (n h : Content) (hi : n <:+: h) : ∃ i, occursAt n h i := by
  obtain ⟨pre, post, rfl⟩ := hi
  refine ⟨pre.length, ?_⟩
  simp [occursAt, List.append_assoc]

theorem infix_of_occursAt (n h : Content) (i : Nat) (ho : occursAt n h i) : n <:+: h :=
  ⟨h.take i, h.drop (i + n.length), (occursAt_split n h i ho).symm⟩

theorem strstr_eq_none_iff (h n : Content) : strstr h n = none ↔ ¬ n <:+: h := by
  constructor
  · intro hs hi
    obtain ⟨i, ho⟩ := occursAt_of_infix n h hi
    exact strstr_none h n hs i ho
  · intro hi
    cases hs : strstr h n with
    | none => rfl
    | some k => exact absurd (infix_of_occursAt n h k (strstr_some h n k hs).1) hi

theorem strstr_char_absent (c : Char) (x : Content) (hx : c ∉ x) : strstr x [c] = none := by
  rw [strstr_eq_none_iff]
  rintro ⟨pre, post, rfl⟩
  exact hx (by simp)

theorem strstr_char_first (c : Char) (x z : Content) (hx : c ∉ x) :
    strstr (x ++ c :: z) [c] = some x.length := by
  induction x with
  | nil => simp [strstr, List.isPrefixOf]
  | cons a x ih =>
    have hne : ¬ c = a := fun e => hx (by simp [e])
    have hx1 : c ∉ x := fun e => hx (List.mem_cons_of_mem a e)
    rw [List.cons_append, strstr_cons, ih hx1]
    simp [List.isPrefixOf, hne]

/-- Splitting a join on a one-character token that no element contains gives the elements. -/
theorem split_zip_char (c : Char) (xs : List Content) (hne : xs ≠ [])
    (hc : ∀ x ∈ xs, c ∉ x) (fuel : Nat)
    (hf : (xl_str_collection.zip xs [c]).length < fuel) :
    xl_str.split fuel (xl_str_collection.zip xs [c]) [c] = some xs := by
  induction xs generalizing fuel with
  | nil => exact absurd rfl hne
  | cons x xs ih =>
    have hx : c ∉ x := hc x (List.mem_cons_self x xs)
    cases fuel with
    | zero => exact absurd hf (Nat.not_lt_zero _)
    | succ fuel =>
      cases xs with
      | nil =>
        rw [zip_single]
        exact split_of_none fuel x [c] (strstr_char_absent c x hx)
      | cons y rest =>
        rw [zip_cons_cons] at hf ⊢
        have hs : strstr (x ++ [c] ++ xl_str_collection.zip (y :: rest) [c]) [c]
            = some x.length := by
          rw [List.append_assoc]
          exact strstr_char_first c x _ hx
        rw [split_of_some fuel _ [c] x.length hs]
        have hd : (x ++ [c] ++ xl_str_collection.zip (y :: rest) [c]).drop
            (x.length + [c].length) = xl_str_collection.zip (y :: rest) [c] := by
          have : x.length + [c].length = (x ++ [c]).length := by simp
          rw [this, List.drop_left]
        have htk : (x ++ [c] ++ xl_str_collection.zip (y :: rest) [c]).take x.length = x := by
          rw [List.append_assoc, List.take_left]
        rw [hd, htk, ih (by simp) (fun z hz => hc z (List.mem_cons_of_mem x hz)) fuel ?_]
        · rfl
        · simp only [List.length_append, List.length_cons, List.length_nil] at hf
          omega

/-! ## The specification function of `replace` -/

theorem leftmostOcc_eq_strstr (search s : Content) : leftmostOcc search s = strstr s search := by
  induction s with
  | nil =>
    have hr : List.range (0 + 1) = [0] := rfl
    simp only [leftmostOcc, List.length_nil, hr, List.find?_cons, List.find?_nil]
    rw [strstr]
    by_cases hp : search.isPrefixOf [] = true
    · simp [hp, (occursAt_zero search []).mpr hp]
    · have : ¬ occursAt search [] 0 := fun ho => hp ((occursAt_zero search []).mp ho)
      simp [hp, this]
  | cons c s ih =>
    rw [strstr_cons, ← ih]
    simp only [leftmostOcc, List.length_cons]
    rw [List.range_succ_eq_map, List.find?_cons, List.find?_map]
    have hfun : ((fun i => decide (occursAt search (c :: s) i)) ∘ Nat.succ)
        = (fun i => decide (occursAt search s i)) := by
      funext i
      simp only [Function.comp, Nat.succ_eq_add_one]
      exact decide_eq_decide.mpr (occursAt_succ search s c i)
    rw [hfun]
    by_cases hp : search.isPrefixOf (c :: s) = true
    · simp [hp, (occursAt_zero search (c :: s)).mpr hp]
    · have : ¬ occursAt search (c :: s) 0 := fun ho => hp ((occursAt_zero search _).mp ho)
      simp only [this, decide_False, hp]
      rfl

/-- The loop of `replace` computes `R`, however far `R` is unfolded beyond `size(s)`. -/
theorem replace_eq_replaceSpecN (search repl : Content) (hs : search ≠ []) (fuel n : Nat)
    (s : Content) (hf : s.length < fuel) (hn : s.length ≤ n) :
    xl_str.replace fuel s search repl = some (replaceSpecN search repl n s) := by
  induction fuel generalizing n s with
  | zero => exact absurd hf (Nat.not_lt_zero _)
  | succ fuel ih =>
    cases hk : strstr s search with
    | none =>
      have hr : replaceSpecN search repl n s = s := by
        cases n with
        | zero => rfl
        | succ n => simp [replaceSpecN, leftmostOcc_eq_strstr, hk]
      rw [hr, xl_str.replace, split_of_none fuel s search hk]
      simp [zip_single]
    | some k =>
      have hocc := (strstr_some s search k hk).1
      have hle := occursAt_le search s k hs hocc
      have hpos : 0 < search.length := List.length_pos.mpr hs
      cases n with
      | zero => omega
      | succ n =>
        have hlen : (s.drop (k + search.length)).length < fuel := by
          rw [List.length_drop]; omega
        have hlen2 : (s.drop (k + search.length)).length ≤ n := by
          rw [List.length_drop]; omega
        have hrec := ih n (s.drop (k + search.length)) hlen hlen2
        simp only [xl_str.replace] at hrec ⊢
        rw [split_of_some fuel s search k hk]
        cases hy : xl_str.split fuel (s.drop (k + search.length)) search with
        | none => rw [hy] at hrec; cases hrec
        | some ys =>
          rw [hy] at hrec
          simp only [Option.map_some', Option.some.injEq] at hrec ⊢
          cases ys with
          | nil => exact absurd rfl (split_ne_nil _ _ _ _ hy)
          | cons y rest =>
            rw [zip_cons_cons, hrec]
            simp [replaceSpecN, leftmostOcc_eq_strstr, hk]

/-- The recursion equation of `R`, as the specification writes it. -/
theorem replaceSpec_unfold (search repl s : Content) (hs : search ≠ []) :
    replaceSpec search repl s =
      match leftmostOcc search s with
      | none => s
      | some i => s.take i ++ repl ++ replaceSpec search repl (s.drop (i + search.length)) := by
  have h1 := replace_eq_replaceSpecN search repl hs (s.length + 1) s.length s
    (Nat.lt_succ_self _) (Nat.le_refl _)
  cases hk : leftmostOcc search s with
  | none =>
    cases hl : s.length with
    | zero => simp [replaceSpec, hl, replaceSpecN]
    | succ m => simp [replaceSpec, hl, replaceSpecN, hk]
  | some k =>
    have hk1 : strstr s search = some k := by rw [← leftmostOcc_eq_strstr]; exact hk
    have hocc := (strstr_some s search k hk1).1
    have hle := occursAt_le search s k hs hocc
    have hpos : 0 < search.length := List.length_pos.mpr hs
    have hlen : (s.drop (k + search.length)).length ≤ s.length - 1 := by
      rw [List.length_drop]; omega
    have h2 := replace_eq_replaceSpecN search repl hs (s.length + 1) (s.length - 1)
      (s.drop (k + search.length)) (by omega) hlen
    have h3 := replace_eq_replaceSpecN search repl hs (s.length + 1)
      (s.drop (k + search.length)).length (s.drop (k + search.length)) (by omega)
      (Nat.le_refl _)
    have h4 : replaceSpecN search repl (s.length - 1) (s.drop (k + search.length))
        = replaceSpecN search repl (s.drop (k + search.length)).length
            (s.drop (k + search.length)) := by
      rw [h2] at h3; exact Option.some.inj h3
    cases hl : s.length with
    | zero => omega
    | succ m =>
      simp only [replaceSpec, hl, replaceSpecN, hk]
      rw [hl] at h4
      simp only [Nat.add_sub_cancel] at h4
      rw [h4]

/-! ## The loop of `lastindexof` -/

theorem occursAt_drop (n h : Content) (p i : Nat) :
    occursAt n (h.drop p) i ↔ occursAt n h (p + i) := by
  simp [occursAt, List.drop_drop, Nat.add_comm]

/-- Loop invariant of `lastindexof`: started at offset `st.startcmpptr`, the loop ends
with the greatest occurrence at or after that offset, or with the incoming `lastidxptr`
when there is none. -/
theorem lastindexofLoop_returns (s sub : Content) (hsub : sub ≠ []) (fuel : Nat)
    (st : xl_str.LastState) (hst : st.startcmpptr ≤ s.length)
    (hf : s.length - st.startcmpptr < fuel) :
    ∃ r, xl_str.lastindexofLoop s sub fuel st = some r ∧
      (((∀ j, st.startcmpptr ≤ j → ¬ occursAt sub s j) ∧ r = st.lastidxptr) ∨
       (∃ i, st.startcmpptr ≤ i ∧ r = some i ∧ occursAt sub s i ∧
          ∀ j, st.startcmpptr ≤ j → occursAt sub s j → j ≤ i)) := by
  induction fuel generalizing st with
  | zero => exact absurd hf (Nat.not_lt_zero _)
  | succ fuel ih =>
    obtain ⟨last, start⟩ := st
    simp only at hst hf ⊢
    simp only [xl_str.lastindexofLoop, xl_str.lastindexofPass]
    cases hk : strstr (s.drop start) sub with
    | none =>
      refine ⟨last, rfl, Or.inl ⟨?_, rfl⟩⟩
      intro j hj ho
      have h1 := strstr_none (s.drop start) sub hk (j - start)
      rw [occursAt_drop] at h1
      apply h1
      have : start + (j - start) = j := by omega
      rw [this]; exact ho
    | some off =>
      simp only
      obtain ⟨h1, h2⟩ := strstr_some (s.drop start) sub off hk
      rw [occursAt_drop] at h1
      have hle := occursAt_le sub s (start + off) hsub h1
      have hpos : 0 < sub.length := List.length_pos.mpr hsub
      obtain ⟨r, hr, hcase⟩ := ih ⟨some (start + off), start + 1⟩ (by simp only; omega)
        (by simp only; omega)
      refine ⟨r, hr, Or.inr ?_⟩
      simp only at hcase
      rcases hcase with ⟨hnone, hreq⟩ | ⟨i, hi, hri, hoi, hmax⟩
      · have hoff : off = 0 := by
          by_contra hne
          exact hnone (start + off) (by omega) h1
        subst hoff
        refine ⟨start, Nat.le_refl _, by simpa using hreq, by simpa using h1, ?_⟩
        intro j hj ho
        by_contra hlt
        exact hnone j (by omega) ho
      · refine ⟨i, by omega, hri, hoi, ?_⟩
        intro j hj ho
        by_cases hjs : j = start
        · omega
        · exact hmax j (by omega) ho

/-! ## `slice` and `isint` -/

theorem slice_eq (s : Content) (a b : Nat) :
    xl_str.slice s a b = (s.drop a).take (min b s.length - a) := by
  unfold xl_str.slice
  simp only
  by_cases hb : b > s.length
  · rw [if_pos hb, Nat.min_eq_right (Nat.le_of_lt hb)]
    by_cases ha : a ≥ s.length
    · rw [if_pos (Or.inl ha)]
      have : s.length - a = 0 := by omega
      simp [this]
    · rw [if_neg (by omega)]
  · rw [if_neg hb, Nat.min_eq_left (by omega)]
    by_cases ha : a ≥ s.length ∨ b ≤ a
    · rw [if_pos ha]
      rcases ha with ha | ha
      · rw [List.drop_eq_nil_of_le ha]; simp
      · have : b - a = 0 := by omega
        simp [this]
    · rw [if_neg ha]

theorem isdigit_iff (c : Char) : isdigit c = true ↔ '0' ≤ c ∧ c ≤ '9' := by
  simp [isdigit]

theorem isint_iff (s : Content) :
    xl_str.isint s = true ↔
      ∃ ds : Content, ds ≠ [] ∧ (∀ c ∈ ds, '0' ≤ c ∧ c ≤ '9') ∧ (s = ds ∨ s = '-' :: ds) := by
  have hminus : ¬ ('0' ≤ '-' ∧ '-' ≤ '9') := by decide
  constructor
  · intro h
    unfold xl_str.isint at h
    simp only at h
    cases s with
    | nil => simp at h
    | cons a t =>
      by_cases ha : a = '-'
      · subst ha
        simp only [List.head?_cons, if_true, List.tail_cons] at h
        cases t with
        | nil => simp at h
        | cons b u =>
          simp only [List.isEmpty_cons, Bool.false_eq_true, if_false, List.all_eq_true] at h
          exact ⟨b :: u, by simp, fun c hc => (isdigit_iff c).mp (h c hc), Or.inr rfl⟩
      · have hh : ¬ (some a = some '-') := fun e => ha (Option.some.inj e)
        simp only [List.head?_cons, hh, if_false, List.isEmpty_cons, Bool.false_eq_true,
          List.all_eq_true] at h
        exact ⟨a :: t, by simp, fun c hc => (isdigit_iff c).mp (h c hc), Or.inl rfl⟩
  · rintro ⟨ds, hne, hd, hs | hs⟩
    · subst hs
      cases s with
      | nil => exact absurd rfl hne
      | cons a t =>
        have ha : ¬ a = '-' := by
          intro e; subst e
          exact hminus (hd '-' (List.mem_cons_self _ _))
        have hh : ¬ (some a = some '-') := fun e => ha (Option.some.inj e)
        unfold xl_str.isint
        simp only [List.head?_cons, hh, if_false, List.isEmpty_cons, Bool.false_eq_true,
          List.all_eq_true]
        exact fun c hc => (isdigit_iff c).mpr (hd c hc)
    · subst hs
      cases ds with
      | nil => exact absurd rfl hne
      | cons a t =>
        unfold xl_str.isint
        simp only [List.head?_cons, if_true, List.tail_cons, List.isEmpty_cons,
          Bool.false_eq_true, if_false, List.all_eq_true]
        exact fun c hc => (isdigit_iff c).mpr (hd c hc)

/-! ## Properties of the specification -/

/-- C1: split/zip round trip.  For every content `v` and every non-empty token `t`, the
loop of `v.split(t)` reaches its `break` (within `size(v) + 1` passes) and zipping the
resulting sequence with `t` gives exactly the content of `v`. -/
theorem split_zip_roundtrip (v t : Content) (ht : t ≠ []) (fuel : Nat)
    (hf : v.length < fuel) :
    (xl_str.split fuel v t).map (fun xs => xl_str_collection.zip xs t) = some v := by
  obtain ⟨xs, hx, _, hz⟩ := split_returns t ht fuel v hf
  rw [hx]
  simp [hz]

theorem split_zip_roundtrip_witness :
    ", ".toList ≠ [] ∧ "x, y, , z".toList.length < 10 ∧
    (xl_str.split 10 "x, y, , z".toList ", ".toList).map
        (fun xs => xl_str_collection.zip xs ", ".toList) = some "x, y, , z".toList ∧
    xl_str.split 10 "x, y, , z".toList ", ".toList
      = some ["x".toList, "y".toList, [], "z".toList] :=
  ⟨by decide, by decide,
    split_zip_roundtrip "x, y, , z".toList ", ".toList (by decide) 10 (by decide),
    by decide⟩

/-- C4: split undoes zip for a single-byte delimiter, keeping empty segments and order.
For every one-character token `c` and every non-empty sequence `xs` of strings none of
which contains `c`, splitting `xs.zip(c)` on `c` returns exactly `xs`. -/
theorem split_zip_single_byte (c : Char) (xs : List Content) (hne : xs ≠ [])
    (hc : ∀ x ∈ xs, c ∉ x) (fuel : Nat)
    (hf : (xl_str_collection.zip xs [c]).length < fuel) :
    xl_str.split fuel (xl_str_collection.zip xs [c]) [c] = some xs :=
  split_zip_char c xs hne hc fuel hf

theorem split_zip_single_byte_witness :
    ["a".toList, "b".toList, [], "c".toList] ≠ [] ∧
    (∀ x ∈ ["a".toList, "b".toList, [], "c".toList], ',' ∉ x) ∧
    (xl_str_collection.zip ["a".toList, "b".toList, [], "c".toList] [',']).length < 7 ∧
    xl_str.split 7 (xl_str_collection.zip ["a".toList, "b".toList, [], "c".toList] [',']) [',']
      = some ["a".toList, "b".toList, [], "c".toList] ∧
    xl_str.split 7 "a,b,,c".toList ",".toList
      = some ["a".toList, "b".toList, [], "c".toList] ∧
    xl_str_collection.zip ["a".toList, "b".toList, [], "c".toList] "-".toList
      = "a-b--c".toList :=
  ⟨by decide, by decide, by decide,
    split_zip_single_byte ',' ["a".toList, "b".toList, [], "c".toList] (by decide)
      (by decide) 7 (by decide),
    by decide, by decide⟩

/-- C5: for every content `s` and every non-empty token `t` that does not occur in `s`,
`s.split(t)` returns (in its first pass) a sequence of exactly one element, whose content
is `s`. -/
theorem split_token_absent (s t : Content) (_ht : t ≠ []) (habs : ¬ t <:+: s) (fuel : Nat)
    (hf : 0 < fuel) :
    xl_str.split fuel s t = some [s] := by
  cases fuel with
  | zero => exact absurd hf (Nat.lt_irrefl 0)
  | succ fuel => exact split_of_none fuel s t ((strstr_eq_none_iff s t).mpr habs)

theorem split_token_absent_witness :
    "--".toList ≠ [] ∧ ¬ "--".toList <:+: "a-b-c".toList ∧ 0 < 1 ∧
    xl_str.split 1 "a-b-c".toList "--".toList = some ["a-b-c".toList] :=
  ⟨by decide, by decide, by decide,
    split_token_absent "a-b-c".toList "--".toList (by decide) (by decide) 1 (by decide)⟩

/-- C6: `slice(start, end)` is total and returns the bytes of the receiver at positions
`start .. min(end, size()) - 1` in order: its size is `min(end, size()) - start` (cut off
at zero), its `i`-th byte is byte `start + i` of the receiver, it is empty exactly when
`start >= size()` or `end <= start`, and an end beyond `size()` gives the same result as
`end = size()`. -/
theorem slice_contract (s : Content) (a b d i : Nat) :
    (xl_str.slice s a b).length = min b s.length - a ∧
    (xl_str.slice s a b)[i]? = (if i < min b s.length - a then s[a + i]? else none) ∧
    (xl_str.slice s a b = [] ↔ (a ≥ s.length ∨ b ≤ a)) ∧
    xl_str.slice s a (s.length + d) = xl_str.slice s a s.length := by
  have hlen : (xl_str.slice s a b).length = min b s.length - a := by
    rw [slice_eq, List.length_take, List.length_drop]
    omega
  refine ⟨hlen, ?_, ?_, ?_⟩
  · rw [slice_eq]
    by_cases hi : i < min b s.length - a
    · rw [if_pos hi, List.getElem?_take_of_lt hi, List.getElem?_drop]
    · rw [if_neg hi, List.getElem?_eq_none]
      rw [List.length_take, List.length_drop]
      omega
  · rw [← List.length_eq_zero, hlen]
    omega
  · rw [slice_eq, slice_eq]
    have : min (s.length + d) s.length = min s.length s.length := by omega
    rw [this]

/-- C7: `last_index_of(sub)` returns the rightmost starting position of an occurrence of
`sub`, overlapping occurrences included, and -1 if there is none.  For every content `s`
and non-empty `sub` the search loop reaches its `break` (within `size(s) + 1` passes), and
the result is the greatest `i` with `s[i .. i + size(sub)) = sub`, or -1 when no such `i`
exists. -/
theorem lastindexof_rightmost (s sub : Content) (hsub : sub ≠ []) (fuel : Nat)
    (hf : s.length < fuel) :
    (∃ i : Nat, xl_str.lastindexof fuel s sub = some (i : Int) ∧ occursAt sub s i ∧
        ∀ j, occursAt sub s j → j ≤ i) ∨
    (xl_str.lastindexof fuel s sub = some (-1) ∧ ∀ j, ¬ occursAt sub s j) := by
  obtain ⟨r, hr, hcase⟩ := lastindexofLoop_returns s sub hsub fuel ⟨none, 0⟩
    (Nat.zero_le _) (by simpa using hf)
  simp only at hcase
  rcases hcase with ⟨hnone, hreq⟩ | ⟨i, _, hri, hoi, hmax⟩
  · right
    subst hreq
    refine ⟨?_, fun j => hnone j (Nat.zero_le j)⟩
    simp [xl_str.lastindexof, hr]
  · left
    subst hri
    refine ⟨i, ?_, hoi, fun j ho => hmax j (Nat.zero_le j) ho⟩
    simp [xl_str.lastindexof, hr]

theorem lastindexof_rightmost_witness :
    "aXa".toList ≠ [] ∧ "aXaXa".toList.length < 6 ∧
    ((∃ i : Nat, xl_str.lastindexof 6 "aXaXa".toList "aXa".toList = some (i : Int) ∧
        occursAt "aXa".toList "aXaXa".toList i ∧
        ∀ j, occursAt "aXa".toList "aXaXa".toList j → j ≤ i) ∨
     (xl_str.lastindexof 6 "aXaXa".toList "aXa".toList = some (-1) ∧
        ∀ j, ¬ occursAt "aXa".toList "aXaXa".toList j)) ∧
    xl_str.lastindexof 6 "aXaXa".toList "aXa".toList = some 2 ∧
    xl_str.lastindexof 6 "aXaXa".toList "b".toList = some (-1) :=
  ⟨by decide, by decide,
    lastindexof_rightmost "aXaXa".toList "aXa".toList (by decide) 6 (by decide),
    by decide, by decide⟩

/-- C8: `is_float` on exponents without digits.  The code rejects `"1e"` (nothing after the
marker) but accepts `"1e-"`, `"1e."` and `"0x1p-"`, where an exponent marker follows the
mantissa and no digit follows the marker and its optional `-`. -/
theorem isfloat_exponent_without_digits :
    xl_str.isfloat "1e".toList = false ∧
    xl_str.isfloat "1e-".toList = true ∧
    xl_str.isfloat "1e.".toList = true ∧
    xl_str.isfloat "0x1p-".toList = true := by
  decide

/-- C9: `is_float` on bodies without digits.  The code rejects the empty body (`""`, `"-"`,
`"0x"`) but accepts `"."`, `"-."` and `"0x."`, which have no exponent marker and whose
body contains no digit. -/
theorem isfloat_body_without_digits :
    xl_str.isfloat "".toList = false ∧
    xl_str.isfloat "-".toList = false ∧
    xl_str.isfloat "0x".toList = false ∧
    xl_str.isfloat ".".toList = true ∧
    xl_str.isfloat "-.".toList = true ∧
    xl_str.isfloat "0x.".toList = true := by
  decide

/-- C10: `is_int()` is true exactly when the content is an optional single leading `-`
followed by one or more ASCII decimal digits and nothing else.  So it is false for the
empty string, for `"-"` alone, and for any content with a `.`, the `x` of a hex prefix or
an exponent letter; `is_int("-42")` is true, `is_int("4.2")` and `is_int("0x1A")` are
false. -/
theorem isint_contract (s pre post : Content) :
    (xl_str.isint s = true ↔
      ∃ ds : Content, ds ≠ [] ∧ (∀ c ∈ ds, '0' ≤ c ∧ c ≤ '9') ∧ (s = ds ∨ s = '-' :: ds)) ∧
    xl_str.isint [] = false ∧
    xl_str.isint "-".toList = false ∧
    xl_str.isint "-42".toList = true ∧
    xl_str.isint "4.2".toList = false ∧
    xl_str.isint "0x1A".toList = false ∧
    xl_str.isint (pre ++ '.' :: post) = false ∧
    xl_str.isint (pre ++ 'x' :: post) = false ∧
    xl_str.isint (pre ++ 'X' :: post) = false ∧
    xl_str.isint (pre ++ 'e' :: post) = false ∧
    xl_str.isint (pre ++ 'E' :: post) = false := by
  have key : ∀ c : Char, ¬ ('0' ≤ c ∧ c ≤ '9') → c ≠ '-' →
      xl_str.isint (pre ++ c :: post) = false := by
    intro c hc hm
    rw [Bool.eq_false_iff]
    intro h
    obtain ⟨ds, _, hd, hs | hs⟩ := (isint_iff _).mp h
    · exact hc (hd c (by rw [← hs]; simp))
    · have hmem : c ∈ '-' :: ds := by rw [← hs]; simp
      rcases List.mem_cons.mp hmem with e | e
      · exact hm e
      · exact hc (hd c e)
  exact ⟨isint_iff s, by decide, by decide, by decide, by decide, by decide,
    key '.' (by decide) (by decide), key 'x' (by decide) (by decide),
    key 'X' (by decide) (by decide), key 'e' (by decide) (by decide),
    key 'E' (by decide) (by decide)⟩

/-! ## The padding loop -/

/-- The bytes that the padding loop writes in passes `i .. i + n - 1`. -/
theorem padLoop_eq (padstr : Content) (hpad : padstr ≠ []) (n i : Nat) (buf : Content) :
    xl_str.padLoop padstr padstr.length n i buf
      = some (buf ++ (List.range' i n).map (fun k => padstr.getD (k % padstr.length) NUL)) := by
  have hpos : padstr.length ≠ 0 := fun h => hpad (List.length_eq_zero.mp h)
  induction n generalizing i buf with
  | zero => simp [xl_str.padLoop]
  | succ n ih =>
    simp only [xl_str.padLoop, sizeMod, if_neg hpos]
    rw [ih (i + 1)]
    simp [List.range'_succ, List.append_assoc]

theorem padLoop_empty (n i : Nat) (buf : Content) :
    xl_str.padLoop [] 0 (n + 1) i buf = none := by
  simp [xl_str.padLoop, sizeMod]

/-- In `size_t`, `t + 1` is above `t` exactly when it does not wrap. -/
theorem lt_succ_mod_iff (t M : Nat) (hM : 0 < M) : t < (t + 1) % M ↔ t + 1 < M := by
  constructor
  · intro h
    by_contra hge
    have h1 : (t + 1) % M < M := Nat.mod_lt _ hM
    omega
  · intro h
    rw [Nat.mod_eq_of_lt h]
    omega

theorem lt_memcount_iff (t : Nat) : t < (t + 1) % (SIZE_MAX + 1) ↔ t < SIZE_MAX := by
  rw [lt_succ_mod_iff t (SIZE_MAX + 1) (Nat.succ_pos _)]
  omega

/-- The outcome of `padend` with non-empty pad content, for every target length. -/
theorem padend_eq (s pad : Content) (t : Nat) (hpad : pad ≠ []) :
    xl_str.padend s t pad
      = if t ≤ s.length ∨ t < SIZE_MAX then
          Outcome.value
            (s ++ (List.range (t - s.length)).map (fun k => pad.getD (k % pad.length) NUL))
        else Outcome.fault Fault.overrun := by
  unfold xl_str.padend
  by_cases ht : t ≤ s.length
  · rw [if_pos ht, if_pos (Or.inl ht)]
    have : t - s.length = 0 := by omega
    simp [this]
  · rw [if_neg ht]
    simp only
    rw [padLoop_eq pad hpad, List.range_eq_range']
    simp only
    by_cases hfit : t < SIZE_MAX
    · rw [if_pos ((lt_memcount_iff t).mpr hfit), if_pos (Or.inr hfit)]
    · rw [if_neg (fun h => hfit ((lt_memcount_iff t).mp h)), if_neg (by tauto)]

/-- The outcome of `padstart` with non-empty pad content, for every target length. -/
theorem padstart_eq (s pad : Content) (t : Nat) (hpad : pad ≠ []) :
    xl_str.padstart s t pad
      = if t ≤ s.length ∨ t < SIZE_MAX then
          Outcome.value
            ((List.range (t - s.length)).map (fun k => pad.getD (k % pad.length) NUL) ++ s)
        else Outcome.fault Fault.overrun := by
  unfold xl_str.padstart
  by_cases ht : t ≤ s.length
  · rw [if_pos ht, if_pos (Or.inl ht)]
    have : t - s.length = 0 := by omega
    simp [this]
  · rw [if_neg ht]
    simp only
    rw [padLoop_eq pad hpad, List.range_eq_range']
    simp only [List.nil_append]
    by_cases hfit : t < SIZE_MAX
    · rw [if_pos ((lt_memcount_iff t).mpr hfit), if_pos (Or.inr hfit)]
    · rw [if_neg (fun h => hfit ((lt_memcount_iff t).mp h)), if_neg (by tauto)]

theorem padBytes_getElem? (pad : Content) (hpad : pad ≠ []) (n k : Nat) (hk : k < n) :
    ((List.range n).map (fun k => pad.getD (k % pad.length) NUL))[k]? = pad[k % pad.length]? := by
  have hpos : 0 < pad.length := List.length_pos.mpr hpad
  have hlt : k % pad.length < pad.length := Nat.mod_lt _ hpos
  rw [List.getElem?_map, List.getElem?_range hk]
  simp only [Option.map_some']
  rw [List.getD_eq_getElem?_getD, List.getElem?_eq_getElem hlt]
  rfl

/-! ## Buffers: `concat` and `operator+=` -/

theorem strlen_append_NUL (v rest : List Char) (hv : NUL ∉ v) :
    strlen (v ++ NUL :: rest) = v.length := by
  induction v with
  | nil => simp [strlen]
  | cons a v ih =>
    have ha : ¬ a = NUL := fun e => hv (by simp [e])
    have hv1 : NUL ∉ v := fun e => hv (List.mem_cons_of_mem a e)
    simp [strlen, ha, ih hv1]

theorem strlen_cstr (v : Content) (hv : NUL ∉ v) : strlen (cstr v) = v.length :=
  strlen_append_NUL v [] hv

theorem content_cstr (v : Content) (hv : NUL ∉ v) : xl_str.content (cstr v) = v := by
  rw [xl_str.content, strlen_cstr v hv, cstr, List.take_left]

theorem ofCstr_cstr (junk : Char) (v : Content) (hv : NUL ∉ v) :
    xl_str.ofCstr junk (cstr v) = cstr v := by
  have hlen : (cstr v).length = v.length + 1 := by simp [cstr]
  simp only [xl_str.ofCstr, strlen_cstr v hv, memcpy, malloc, List.take_zero, List.nil_append,
    Nat.zero_add]
  rw [List.take_of_length_le (by omega), List.drop_of_length_le (by simp)]
  simp

theorem concat_cstr (junk : Char) (v c : Content) (hv : NUL ∉ v) (hc : NUL ∉ c) :
    xl_str.concat junk (cstr v) (cstr c) = cstr (v ++ c) := by
  have hvc : NUL ∉ v ++ c := by
    intro h
    rcases List.mem_append.mp h with h | h
    · exact hv h
    · exact hc h
  have hstep : memcpy (memcpy (malloc junk (v.length + c.length + 1)) 0 (cstr v) v.length)
      v.length (cstr c) (c.length + 1) = cstr (v ++ c) := by
    have h1 : memcpy (malloc junk (v.length + c.length + 1)) 0 (cstr v) v.length
        = v ++ List.replicate (c.length + 1) junk := by
      simp only [memcpy, malloc, List.take_zero, List.nil_append, Nat.zero_add, cstr,
        List.take_left, List.drop_replicate]
      congr 2
      omega
    rw [h1]
    simp only [memcpy, List.take_left]
    rw [List.take_of_length_le (by simp [cstr]), List.drop_of_length_le (by simp)]
    simp [cstr]
  simp only [xl_str.concat, strlen_cstr v hv, strlen_cstr c hc]
  rw [hstep, ofCstr_cstr junk (v ++ c) hvc]

theorem operatorPlusAssign_cstr (junk : Char) (v c : Content) (hv : NUL ∉ v) (hc : NUL ∉ c) :
    xl_str.operatorPlusAssign junk (cstr v) (xl_str.StrArg.separate (cstr c))
      = Outcome.value (cstr (v ++ c)) := by
  have h1 : realloc junk (cstr v) (v.length + c.length + 1)
      = v ++ (NUL :: List.replicate c.length junk) := by
    simp only [realloc]
    rw [List.take_of_length_le (by simp [cstr])]
    have : v.length + c.length + 1 - (cstr v).length = c.length := by simp [cstr]
    rw [this]
    simp [cstr]
  simp only [xl_str.operatorPlusAssign, xl_str.StrArg.bytes, strlen_cstr v hv,
    strlen_cstr c hc]
  rw [h1]
  simp only [memcpy, List.take_left]
  rw [List.take_of_length_le (by simp [cstr]), List.drop_of_length_le (by simp)]
  simp [cstr]

/-- When `str2` points into the receiver, `operator+=` reads it after `realloc`. -/
theorem operatorPlusAssign_view (junk : Char) (str : List Char) (off : Nat) :
    xl_str.operatorPlusAssign junk str (xl_str.StrArg.view off)
      = Outcome.fault Fault.staleRead := by
  simp [xl_str.operatorPlusAssign]

/-! ## The loop of `repeat` -/

theorem repeatLoop_eq (v : Content) (n : Nat) (buf : Content) :
    xl_str.repeatLoop v n buf = buf ++ (List.replicate n v).flatten := by
  induction n generalizing buf with
  | zero => simp [xl_str.repeatLoop]
  | succ n ih =>
    rw [xl_str.repeatLoop, ih, List.replicate_succ, List.flatten_cons, List.append_assoc]

theorem repeatLoop_succ (v : Content) (n : Nat) :
    xl_str.repeatLoop v (n + 1) [] = v ++ xl_str.repeatLoop v n [] := by
  simp [repeatLoop_eq, List.replicate_succ]

theorem repeatLoop_length (v : Content) (n : Nat) :
    (xl_str.repeatLoop v n []).length = n * v.length := by
  induction n with
  | zero => simp [xl_str.repeatLoop]
  | succ n ih => rw [repeatLoop_succ, List.length_append, ih, Nat.succ_mul]; omega

theorem repeatLoop_getElem? (v : Content) (n j : Nat) (hj : j < n * v.length) :
    (xl_str.repeatLoop v n [])[j]? = v[j % v.length]? := by
  induction n generalizing j with
  | zero => simp at hj
  | succ n ih =>
    rw [repeatLoop_succ]
    by_cases hlt : j < v.length
    · rw [List.getElem?_append_left hlt, Nat.mod_eq_of_lt hlt]
    · have hge : v.length ≤ j := Nat.le_of_not_lt hlt
      rw [List.getElem?_append_right hge, ih (j - v.length) (by rw [Nat.succ_mul] at hj; omega)]
      conv_rhs => rw [Nat.mod_eq_sub_mod hge]

/-- The outcome of `repeat`, for every content and count. -/
theorem repeat_eq (v : Content) (n : Nat) :
    xl_str.repeat_ v n
      = if v.length * n < SIZE_MAX then Outcome.value (xl_str.repeatLoop v n [])
        else Outcome.fault Fault.overrun := by
  unfold xl_str.repeat_
  simp only
  by_cases hfit : v.length * n < SIZE_MAX
  · rw [if_pos ((lt_memcount_iff _).mpr hfit), if_pos hfit]
  · rw [if_neg (fun h => hfit ((lt_memcount_iff _).mp h)), if_neg hfit]

/-! ## The loops of `trim` -/

/-- The first loop of `trim` stops on the first byte that is not whitespace. -/
theorem trimStartLoop_spec (s : Content) :
    xl_str.trimStartLoop s ≤ s.length ∧
    (∀ k, k < xl_str.trimStartLoop s → isspace (s.getD k NUL) = true) ∧
    (xl_str.trimStartLoop s < s.length →
      isspace (s.getD (xl_str.trimStartLoop s) NUL) = false) := by
  induction s with
  | nil => simp [xl_str.trimStartLoop]
  | cons c cs ih =>
    obtain ⟨h1, h2, h3⟩ := ih
    by_cases hc : isspace c = true
    · simp only [xl_str.trimStartLoop, hc, if_true, List.length_cons]
      refine ⟨by omega, ?_, ?_⟩
      · intro k hk
        cases k with
        | zero => simpa using hc
        | succ k => simpa using h2 k (by omega)
      · intro hlt
        simpa using h3 (by omega)
    · have hc1 : isspace c = false := by simpa using hc
      simp only [xl_str.trimStartLoop, hc1, Bool.false_eq_true, if_false, List.length_cons]
      refine ⟨by omega, fun k hk => absurd hk (Nat.not_lt_zero k), ?_⟩
      intro _
      simpa using hc1

/-- The second loop of `trim` stops on the last byte that is not whitespace, or runs off
the front of the string. -/
theorem trimEndLoop_spec (s : Content) (n : Nat) :
    -1 ≤ xl_str.trimEndLoop s n ∧ xl_str.trimEndLoop s n < (n : Int) ∧
    (∀ k : Nat, xl_str.trimEndLoop s n < (k : Int) → k < n → isspace (s.getD k NUL) = true) ∧
    (0 ≤ xl_str.trimEndLoop s n →
      isspace (s.getD (xl_str.trimEndLoop s n).toNat NUL) = false) := by
  induction n with
  | zero =>
    refine ⟨by simp [xl_str.trimEndLoop], by simp [xl_str.trimEndLoop], ?_, ?_⟩
    · intro k _ hk
      exact absurd hk (Nat.not_lt_zero k)
    · intro h
      simp [xl_str.trimEndLoop] at h
  | succ n ih =>
    obtain ⟨h1, h2, h3, h4⟩ := ih
    by_cases hc : isspace (s.getD n NUL) = true
    · simp only [xl_str.trimEndLoop, hc, if_true]
      refine ⟨h1, by omega, ?_, h4⟩
      intro k hk hkn
      by_cases hkn1 : k = n
      · rw [hkn1]; exact hc
      · exact h3 k hk (by omega)
    · have hc1 : isspace (s.getD n NUL) = false := by simpa using hc
      simp only [xl_str.trimEndLoop, hc1, Bool.false_eq_true, if_false]
      refine ⟨by omega, by omega, ?_, ?_⟩
      · intro k hk hkn
        omega
      · intro _
        simpa using hc1

theorem getD_mem (s : Content) (k : Nat) (hk : k < s.length) : s.getD k NUL ∈ s := by
  rw [List.getD_eq_getElem?_getD, List.getElem?_eq_getElem hk]
  exact List.getElem_mem hk

theorem trim_all_space (s : Content) (hall : ∀ c ∈ s, isspace c = true) :
    xl_str.trim s = [] := by
  obtain ⟨_, _, a3⟩ := trimStartLoop_spec s
  obtain ⟨b1, b2, _, b4⟩ := trimEndLoop_spec s s.length
  have hstart : xl_str.trimStartLoop s = s.length := by
    by_contra hne
    have hlt : xl_str.trimStartLoop s < s.length := by omega
    have := a3 hlt
    rw [hall _ (getD_mem s _ hlt)] at this
    cases this
  have hend : xl_str.trimEndLoop s s.length = -1 := by
    by_contra hne
    have hnn : 0 ≤ xl_str.trimEndLoop s s.length := by omega
    have := b4 hnn
    rw [hall _ (getD_mem s _ (by omega))] at this
    cases this
  simp only [xl_str.trim, hstart, hend]
  rw [if_pos (by omega)]

theorem trim_between (s : Content) (i j : Nat) (_hi : i < s.length) (hj : j < s.length)
    (hfirst : isspace (s.getD i NUL) = false)
    (hbefore : ∀ k, k < i → isspace (s.getD k NUL) = true)
    (hlast : isspace (s.getD j NUL) = false)
    (hafter : ∀ k, k < s.length → j < k → isspace (s.getD k NUL) = true) :
    xl_str.trim s = (s.drop i).take (j + 1 - i) := by
  obtain ⟨a1, a2, a3⟩ := trimStartLoop_spec s
  obtain ⟨b1, b2, b3, b4⟩ := trimEndLoop_spec s s.length
  have hij : i ≤ j := by
    by_contra hlt
    have := hbefore j (by omega)
    rw [hlast] at this
    cases this
  have hstart : xl_str.trimStartLoop s = i := by
    rcases Nat.lt_trichotomy (xl_str.trimStartLoop s) i with h | h | h
    · have h5 := a3 (by omega)
      rw [hbefore _ h] at h5
      cases h5
    · exact h
    · have h5 := a2 i h
      rw [hfirst] at h5
      cases h5
  have hend : xl_str.trimEndLoop s s.length = (j : Int) := by
    rcases Int.lt_trichotomy (xl_str.trimEndLoop s s.length) (j : Int) with h | h | h
    · have h5 := b3 j h hj
      rw [hlast] at h5
      cases h5
    · exact h
    · have hnn : 0 ≤ xl_str.trimEndLoop s s.length := by omega
      have h5 := b4 hnn
      rw [hafter _ (by omega) (by omega)] at h5
      cases h5
  simp only [xl_str.trim, hstart, hend]
  rw [if_neg (by omega)]
  have h6 : ((j : Int) - (i : Int) + 1).toNat = j + 1 - i := by omega
  rw [h6]
  simp

/-! ## `endswith`, `indexof` and `includes` -/

theorem endswith_iff (s sub : Content) :
    xl_str.endswith s sub = true ↔ ∃ p, s = p ++ sub := by
  unfold xl_str.endswith
  by_cases hlen : s.length < sub.length
  · rw [if_pos hlen]
    constructor
    · intro h; cases h
    · rintro ⟨p, hp⟩
      have := congrArg List.length hp
      simp only [List.length_append] at this
      omega
  · rw [if_neg hlen]
    simp only
    constructor
    · intro h
      by_cases he : s.drop (s.length - sub.length) = sub
      · refine ⟨s.take (s.length - sub.length), ?_⟩
        conv_lhs => rw [← List.take_append_drop (s.length - sub.length) s, he]
      · rw [if_neg he] at h; cases h
    · rintro ⟨p, hp⟩
      have he : s.drop (s.length - sub.length) = sub := by
        subst hp
        simp
      rw [if_pos he]

theorem indexof_eq_neg_one_iff (s sub : Content) :
    xl_str.indexof s sub = -1 ↔ strstr s sub = none := by
  unfold xl_str.indexof
  cases strstr s sub with
  | none => simp
  | some k => simp

theorem indexof_eq_natCast_iff (s sub : Content) (i : Nat) :
    xl_str.indexof s sub = (i : Int) ↔ strstr s sub = some i := by
  unfold xl_str.indexof
  cases strstr s sub with
  | none => simp
  | some k => simp

theorem strstr_eq_some_iff (h n : Content) (k : Nat) :
    strstr h n = some k ↔ occursAt n h k ∧ ∀ j, j < k → ¬ occursAt n h j := by
  constructor
  · exact strstr_some h n k
  · rintro ⟨ho, hmin⟩
    obtain ⟨k1, hk1, hle⟩ := strstr_of_occursAt h n k ho
    have h1 := (strstr_some h n k1 hk1).1
    have : k1 = k := by
      by_contra hne
      exact hmin k1 (by omega) h1
    rw [hk1, this]

/-! ## The loop of `split` on an empty token -/

theorem strstr_empty (hay : Content) : strstr hay [] = some 0 := by
  cases hay <;> simp [strstr]

theorem splitPass_empty (s : Content) (st : xl_str.SplitState) :
    xl_str.splitPass s [] st = Sum.inl ⟨st.startptr, st.tmpxlstrs ++ [[]]⟩ := by
  simp [xl_str.splitPass, strstr_empty]

theorem splitLoop_empty (s : Content) (fuel : Nat) (st : xl_str.SplitState) :
    xl_str.splitLoop s [] fuel st = none := by
  induction fuel generalizing st with
  | zero => rfl
  | succ fuel ih => rw [xl_str.splitLoop, splitPass_empty]; exact ih _

/-! ## Properties of the specification, continued -/

/-- C11, for `target_len < SIZE_MAX`: `pad_end(target_len, pad)` with non-empty pad content
and a target length below `SIZE_MAX` (so that the byte count `target_len + 1` does not wrap in `size_t`)
returns a value; when `target_len <= size()` it is the receiver unchanged, and otherwise it
has size exactly `target_len`, its first `size()` bytes are the receiver and for every
`k < target_len - size()` the byte at position `size() + k` is `pad[k mod size(pad)]`. -/
theorem padend_contract (s pad : Content) (t : Nat) (hpad : pad ≠ []) (hfit : t < SIZE_MAX) :
    ∃ r, xl_str.padend s t pad = Outcome.value r ∧
      (t ≤ s.length → r = s) ∧
      (s.length < t → r.length = t ∧ r.take s.length = s ∧
        ∀ k, k < t - s.length → r[s.length + k]? = pad[k % pad.length]?) := by
  refine ⟨_, by rw [padend_eq s pad t hpad, if_pos (Or.inr hfit)], ?_, ?_⟩
  · intro ht
    have : t - s.length = 0 := by omega
    simp [this]
  · intro ht
    refine ⟨?_, by simp, ?_⟩
    · simp only [List.length_append, List.length_map, List.length_range]
      omega
    · intro k hk
      rw [List.getElem?_append_right (by omega), Nat.add_sub_cancel_left]
      exact padBytes_getElem? pad hpad _ k hk

theorem padend_contract_witness :
    "xy".toList ≠ [] ∧ 5 < SIZE_MAX ∧
    (∃ r, xl_str.padend "ab".toList 5 "xy".toList = Outcome.value r ∧
      (5 ≤ "ab".toList.length → r = "ab".toList) ∧
      ("ab".toList.length < 5 → r.length = 5 ∧ r.take "ab".toList.length = "ab".toList ∧
        ∀ k, k < 5 - "ab".toList.length →
          r["ab".toList.length + k]? = "xy".toList[k % "xy".toList.length]?)) ∧
    xl_str.padend "ab".toList 5 "xy".toList = Outcome.value "abxyx".toList ∧
    xl_str.padend "abcdef".toList 3 "x".toList = Outcome.value "abcdef".toList :=
  ⟨by decide, by decide,
    padend_contract "ab".toList "xy".toList 5 (by decide) (by decide), by decide, by decide⟩

/-- C11 at `target_len = SIZE_MAX`: the byte count `target_len + 1`
wraps to 0, the writes leave the block, and no value of size `target_len` is returned. -/
theorem padend_overrun_at_SIZE_MAX :
    "xy".toList ≠ [] ∧ "ab".toList.length < SIZE_MAX ∧
    (SIZE_MAX + 1) % (SIZE_MAX + 1) = 0 ∧
    xl_str.padend "ab".toList SIZE_MAX "xy".toList = Outcome.fault Fault.overrun ∧
    ¬ ∃ r, xl_str.padend "ab".toList SIZE_MAX "xy".toList = Outcome.value r ∧
        r.length = SIZE_MAX := by
  have hc : ¬ (SIZE_MAX ≤ "ab".toList.length ∨ SIZE_MAX < SIZE_MAX) := by decide
  have hov : xl_str.padend "ab".toList SIZE_MAX "xy".toList = Outcome.fault Fault.overrun := by
    rw [padend_eq "ab".toList "xy".toList SIZE_MAX (by decide), if_neg hc]
  refine ⟨by decide, by decide, Nat.mod_self _, hov, ?_⟩
  rintro ⟨r, hr, _⟩
  rw [hov] at hr
  cases hr

/-- C12, for `target_len < SIZE_MAX`: `pad_start(target_len, pad)` with non-empty pad content
and a target length below `SIZE_MAX` (so that the byte count `target_len + 1` does not wrap in `size_t`)
returns a value; when `target_len <= size()` it is the receiver unchanged, and otherwise it
has size exactly `target_len`, its last `size()` bytes are the receiver and for every
`k < target_len - size()` the byte at position `k` is `pad[k mod size(pad)]`, so the cycle
starts at the first byte of the result. -/
theorem padstart_contract (s pad : Content) (t : Nat) (hpad : pad ≠ [])
    (hfit : t < SIZE_MAX) :
    ∃ r, xl_str.padstart s t pad = Outcome.value r ∧
      (t ≤ s.length → r = s) ∧
      (s.length < t → r.length = t ∧ r.drop (t - s.length) = s ∧
        ∀ k, k < t - s.length → r[k]? = pad[k % pad.length]?) := by
  refine ⟨_, by rw [padstart_eq s pad t hpad, if_pos (Or.inr hfit)], ?_, ?_⟩
  · intro ht
    have : t - s.length = 0 := by omega
    simp [this]
  · intro ht
    refine ⟨?_, ?_, ?_⟩
    · simp only [List.length_append, List.length_map, List.length_range]
      omega
    · rw [List.drop_left' (by simp)]
    · intro k hk
      rw [List.getElem?_append_left (by simpa using hk)]
      exact padBytes_getElem? pad hpad _ k hk

theorem padstart_contract_witness :
    "xy".toList ≠ [] ∧ 5 < SIZE_MAX ∧
    (∃ r, xl_str.padstart "ab".toList 5 "xy".toList = Outcome.value r ∧
      (5 ≤ "ab".toList.length → r = "ab".toList) ∧
      ("ab".toList.length < 5 → r.length = 5 ∧ r.drop (5 - "ab".toList.length) = "ab".toList ∧
        ∀ k, k < 5 - "ab".toList.length → r[k]? = "xy".toList[k % "xy".toList.length]?)) ∧
    xl_str.padstart "ab".toList 5 "xy".toList = Outcome.value "xyxab".toList ∧
    xl_str.padstart "abcdef".toList 3 "x".toList = Outcome.value "abcdef".toList :=
  ⟨by decide, by decide,
    padstart_contract "ab".toList "xy".toList 5 (by decide) (by decide), by decide, by decide⟩

/-- C12 at `target_len = SIZE_MAX`: the byte count `target_len + 1`
wraps to 0, the pad loop writes past the block, and no value of size `target_len` is
returned. -/
theorem padstart_overrun_at_SIZE_MAX :
    "xy".toList ≠ [] ∧ "ab".toList.length < SIZE_MAX ∧
    (SIZE_MAX + 1) % (SIZE_MAX + 1) = 0 ∧
    xl_str.padstart "ab".toList SIZE_MAX "xy".toList = Outcome.fault Fault.overrun ∧
    ¬ ∃ r, xl_str.padstart "ab".toList SIZE_MAX "xy".toList = Outcome.value r ∧
        r.length = SIZE_MAX := by
  have hc : ¬ (SIZE_MAX ≤ "ab".toList.length ∨ SIZE_MAX < SIZE_MAX) := by decide
  have hov : xl_str.padstart "ab".toList SIZE_MAX "xy".toList
      = Outcome.fault Fault.overrun := by
    rw [padstart_eq "ab".toList "xy".toList SIZE_MAX (by decide), if_neg hc]
  refine ⟨by decide, by decide, Nat.mod_self _, hov, ?_⟩
  rintro ⟨r, hr, _⟩
  rw [hov] at hr
  cases hr

/-- C13: empty pad content causes a division by zero in the cycling index.  For `pad_end`
and `pad_start` with empty pad content, `i % size(pad)` is evaluated with divisor 0 (the
outcome `divByZero`) exactly when `target_len > size()`; when `target_len <= size()` no
division is evaluated and the receiver's content is returned.  With non-empty pad content
the divisor is never 0: no call ends in a division by zero, and both methods return a
value for every `target_len <= size()` and every `target_len < SIZE_MAX`. -/
theorem pad_empty_divides_by_zero (s : Content) (t i : Nat) (c : Char) (pad : Content) :
    xl_str.padend s t []
      = (if s.length < t then Outcome.fault Fault.divByZero else Outcome.value s) ∧
    xl_str.padstart s t []
      = (if s.length < t then Outcome.fault Fault.divByZero else Outcome.value s) ∧
    sizeMod i ([] : Content).length = none ∧
    sizeMod i (c :: pad).length = some (i % (c :: pad).length) ∧
    xl_str.padend s t (c :: pad) ≠ Outcome.fault Fault.divByZero ∧
    xl_str.padstart s t (c :: pad) ≠ Outcome.fault Fault.divByZero ∧
    (t ≤ s.length ∨ t < SIZE_MAX → ∃ r, xl_str.padend s t (c :: pad) = Outcome.value r) ∧
    (t ≤ s.length ∨ t < SIZE_MAX → ∃ r, xl_str.padstart s t (c :: pad) = Outcome.value r) := by
  have hloop : ∀ buf : Content, s.length < t →
      xl_str.padLoop [] 0 (t - s.length) 0 buf = none := by
    intro buf ht
    obtain ⟨m, hm⟩ : ∃ m, t - s.length = m + 1 := ⟨t - s.length - 1, by omega⟩
    rw [hm]
    exact padLoop_empty m 0 buf
  refine ⟨?_, ?_, by simp [sizeMod], by simp [sizeMod], ?_, ?_, ?_, ?_⟩
  · by_cases ht : s.length < t
    · simp only [xl_str.padend, if_neg (Nat.not_le.mpr ht), if_pos ht, List.length_nil]
      rw [hloop s ht]
    · simp only [xl_str.padend, if_pos (Nat.le_of_not_lt ht), if_neg ht]
  · by_cases ht : s.length < t
    · simp only [xl_str.padstart, if_neg (Nat.not_le.mpr ht), if_pos ht, List.length_nil]
      rw [hloop [] ht]
    · simp only [xl_str.padstart, if_pos (Nat.le_of_not_lt ht), if_neg ht]
  · rw [padend_eq s (c :: pad) t (by simp)]
    split <;> intro h <;> cases h
  · rw [padstart_eq s (c :: pad) t (by simp)]
    split <;> intro h <;> cases h
  · intro h
    exact ⟨_, by rw [padend_eq s (c :: pad) t (by simp), if_pos h]⟩
  · intro h
    exact ⟨_, by rw [padstart_eq s (c :: pad) t (by simp), if_pos h]⟩

theorem pad_empty_divides_by_zero_witness :
    xl_str.padend "ab".toList 5 [] = Outcome.fault Fault.divByZero ∧
    xl_str.padstart "ab".toList 5 [] = Outcome.fault Fault.divByZero ∧
    xl_str.padend "ab".toList 2 [] = Outcome.value "ab".toList ∧
    xl_str.padend "".toList SIZE_MAX [] = Outcome.fault Fault.divByZero ∧
    ((5 : Nat) ≤ "ab".toList.length ∨ 5 < SIZE_MAX) ∧
    (∃ r, xl_str.padend "ab".toList 5 ('x' :: "y".toList) = Outcome.value r) ∧
    (∃ r, xl_str.padstart "ab".toList 5 ('x' :: "y".toList) = Outcome.value r) :=
  ⟨by decide, by decide, by decide,
    by
      have h := (pad_empty_divides_by_zero "".toList SIZE_MAX 0 'x' []).1
      rw [h, if_pos (by decide)],
    by decide,
    (pad_empty_divides_by_zero "ab".toList 5 0 'x' "y".toList).2.2.2.2.2.2.1 (by decide),
    (pad_empty_divides_by_zero "ab".toList 5 0 'x' "y".toList).2.2.2.2.2.2.2 (by decide)⟩

/-- C14: `index_of(sub)` returns the leftmost occurrence.  For every content `s` and every
`sub`, the result is `i` exactly when `i` is the least offset with
`s[i .. i + size(sub)) = sub`; it is -1 exactly when `sub` does not occur in `s`, and that
is exactly when `includes(sub)` is false. -/
theorem indexof_leftmost (s sub : Content) (i : Nat) :
    (xl_str.indexof s sub = (i : Int) ↔
      occursAt sub s i ∧ ∀ j, j < i → ¬ occursAt sub s j) ∧
    (xl_str.indexof s sub = -1 ↔ ¬ sub <:+: s) ∧
    (xl_str.indexof s sub = -1 ↔ ∀ j, ¬ occursAt sub s j) ∧
    (xl_str.includes s sub = false ↔ xl_str.indexof s sub = -1) ∧
    (xl_str.indexof s sub = -1 ∨ ∃ k : Nat, xl_str.indexof s sub = (k : Int)) := by
  refine ⟨?_, ?_, ?_, ?_, ?_⟩
  · rw [indexof_eq_natCast_iff, strstr_eq_some_iff]
  · rw [indexof_eq_neg_one_iff, strstr_eq_none_iff]
  · rw [indexof_eq_neg_one_iff]
    constructor
    · exact fun h j => strstr_none s sub h j
    · intro h
      rw [strstr_eq_none_iff]
      intro hi
      obtain ⟨k, hk⟩ := occursAt_of_infix sub s hi
      exact h k hk
  · rw [indexof_eq_neg_one_iff, xl_str.includes]
    cases strstr s sub <;> simp
  · cases hs : strstr s sub with
    | none => exact Or.inl ((indexof_eq_neg_one_iff s sub).mpr hs)
    | some k => exact Or.inr ⟨k, (indexof_eq_natCast_iff s sub k).mpr hs⟩

/-- C15: `ends_with(sub)` is false whenever `size(sub) > size(self)`, and otherwise it is
true exactly when the last `size(sub)` bytes of the receiver equal `sub`; equivalently,
`ends_with(sub)` holds iff the receiver is `p + sub` for some `p`. -/
theorem endswith_contract (s sub : Content) :
    xl_str.endswith s sub
      = decide (sub.length ≤ s.length ∧ s.drop (s.length - sub.length) = sub) ∧
    (xl_str.endswith s sub = true ↔ ∃ p, s = p ++ sub) := by
  refine ⟨?_, endswith_iff s sub⟩
  unfold xl_str.endswith
  by_cases hlen : s.length < sub.length
  · rw [if_pos hlen]
    symm
    rw [decide_eq_false_iff_not]
    intro h
    omega
  · rw [if_neg hlen]
    simp only
    by_cases he : s.drop (s.length - sub.length) = sub
    · rw [if_pos he]
      symm
      rw [decide_eq_true_iff]
      exact ⟨by omega, he⟩
    · rw [if_neg he]
      symm
      rw [decide_eq_false_iff_not]
      exact fun h => he h.2

/-- C16: `trim()` removes exactly the maximal run of leading whitespace bytes and the
maximal run of trailing whitespace bytes.  When every byte is whitespace (the empty content
included) the result is empty; when `i` is the position of the first byte that is not
whitespace and `j` the position of the last one, the result is the content at positions
`i .. j` inclusive. -/
theorem trim_contract (s : Content) :
    ((∀ c ∈ s, isspace c = true) → xl_str.trim s = []) ∧
    (∀ i j, i < s.length → j < s.length →
      isspace (s.getD i NUL) = false → (∀ k, k < i → isspace (s.getD k NUL) = true) →
      isspace (s.getD j NUL) = false →
      (∀ k, k < s.length → j < k → isspace (s.getD k NUL) = true) →
      xl_str.trim s = (s.drop i).take (j + 1 - i)) :=
  ⟨trim_all_space s, trim_between s⟩

theorem trim_contract_witness :
    (∀ c ∈ "   ".toList, isspace c = true) ∧ xl_str.trim "   ".toList = [] ∧
    (2 < "  a b \t\n".toList.length ∧ 4 < "  a b \t\n".toList.length ∧
      isspace ("  a b \t\n".toList.getD 2 NUL) = false ∧
      (∀ k, k < 2 → isspace ("  a b \t\n".toList.getD k NUL) = true) ∧
      isspace ("  a b \t\n".toList.getD 4 NUL) = false ∧
      (∀ k, k < "  a b \t\n".toList.length → 4 < k →
        isspace ("  a b \t\n".toList.getD k NUL) = true)) ∧
    xl_str.trim "  a b \t\n".toList = ("  a b \t\n".toList.drop 2).take (4 + 1 - 2) ∧
    xl_str.trim "  a b \t\n".toList = "a b".toList ∧
    xl_str.trim "".toList = [] :=
  ⟨by decide, (trim_contract "   ".toList).1 (by decide),
    ⟨by decide, by decide, by decide, by decide, by decide, by decide⟩,
    (trim_contract "  a b \t\n".toList).2 2 4 (by decide) (by decide) (by decide) (by decide)
      (by decide) (by decide),
    by decide, by decide⟩

/-- C17, for an argument outside the receiver: in-place append agrees with `concat` when
the argument is not a view of the receiver.  For every value `v` and content `c` held in a block of its own (C
strings, so without a NUL byte), `v += c` returns and afterwards the content of `v` equals
the content of `v.concat(c)` computed on the old `v`: the old content followed by `c`, of
size `old size + size(c)`; the two buffers hold the same bytes. -/
theorem plus_assign_agrees_with_concat (junk : Char) (v c : Content) (hv : NUL ∉ v)
    (hc : NUL ∉ c) :
    ∃ buf, xl_str.operatorPlusAssign junk (cstr v) (xl_str.StrArg.separate (cstr c))
        = Outcome.value buf ∧
      xl_str.content buf = xl_str.content (xl_str.concat junk (cstr v) (cstr c)) ∧
      xl_str.content buf = v ++ c ∧
      xl_str.size buf = xl_str.size (cstr v) + xl_str.size (cstr c) ∧
      buf = cstr (v ++ c) ∧
      xl_str.concat junk (cstr v) (cstr c) = cstr (v ++ c) := by
  have hvc : NUL ∉ v ++ c := by
    intro h
    rcases List.mem_append.mp h with h | h
    · exact hv h
    · exact hc h
  refine ⟨cstr (v ++ c), operatorPlusAssign_cstr junk v c hv hc, ?_, content_cstr _ hvc, ?_,
    rfl, concat_cstr junk v c hv hc⟩
  · rw [concat_cstr junk v c hv hc]
  · simp only [xl_str.size]
    rw [strlen_cstr _ hvc, strlen_cstr _ hv, strlen_cstr _ hc, List.length_append]

theorem plus_assign_agrees_with_concat_witness :
    NUL ∉ "ab".toList ∧ NUL ∉ "cde".toList ∧
    (∃ buf, xl_str.operatorPlusAssign '?' (cstr "ab".toList)
          (xl_str.StrArg.separate (cstr "cde".toList)) = Outcome.value buf ∧
      xl_str.content buf
        = xl_str.content (xl_str.concat '?' (cstr "ab".toList) (cstr "cde".toList)) ∧
      xl_str.content buf = "ab".toList ++ "cde".toList ∧
      xl_str.size buf = xl_str.size (cstr "ab".toList) + xl_str.size (cstr "cde".toList) ∧
      buf = cstr ("ab".toList ++ "cde".toList) ∧
      xl_str.concat '?' (cstr "ab".toList) (cstr "cde".toList)
        = cstr ("ab".toList ++ "cde".toList)) ∧
    xl_str.operatorPlusAssign '?' (cstr "ab".toList)
        (xl_str.StrArg.separate (cstr "cde".toList)) = Outcome.value (cstr "abcde".toList) :=
  ⟨by decide, by decide,
    plus_assign_agrees_with_concat '?' "ab".toList "cde".toList (by decide) (by decide),
    by decide⟩

/-- C17 when the content appended is a view of the receiver itself
(`v += v()`, `v += v`): `concat` returns the content twice, while `operator+=` reads the
view after `realloc` and returns no value. -/
theorem plus_assign_self_view :
    NUL ∉ "ab".toList ∧
    xl_str.StrArg.bytes (cstr "ab".toList) (xl_str.StrArg.view 0) = cstr "ab".toList ∧
    xl_str.content (xl_str.concat '?' (cstr "ab".toList)
        (xl_str.StrArg.bytes (cstr "ab".toList) (xl_str.StrArg.view 0))) = "abab".toList ∧
    xl_str.operatorPlusAssign '?' (cstr "ab".toList) (xl_str.StrArg.view 0)
      = Outcome.fault Fault.staleRead ∧
    ¬ ∃ buf, xl_str.operatorPlusAssign '?' (cstr "ab".toList) (xl_str.StrArg.view 0)
          = Outcome.value buf ∧
        xl_str.content buf = xl_str.content (xl_str.concat '?' (cstr "ab".toList)
          (xl_str.StrArg.bytes (cstr "ab".toList) (xl_str.StrArg.view 0))) := by
  refine ⟨by decide, by decide, by decide, by decide, ?_⟩
  rintro ⟨buf, hb, _⟩
  rw [operatorPlusAssign_view] at hb
  cases hb

/-- C18, without wrap of the byte count: `repeat(count)` returns the receiver's content repeated `count` times
whenever the byte count `size(v) * count + 1` does not wrap in `size_t`.  For every content
`v` (of size below `SIZE_MAX`, as its buffer holds `size(v) + 1` bytes) and count `n` with
`size(v) * n < SIZE_MAX` the result has size `n * size(v)` and its byte at every position
`j < n * size(v)` is `v[j mod size(v)]`; `repeat(0)` is empty, `repeat(1)` equals `v`, and
`operator*(count)` returns the same value. -/
theorem repeat_contract (v : Content) (n j : Nat) (hv : v.length < SIZE_MAX)
    (hfit : v.length * n < SIZE_MAX) :
    (∃ r, xl_str.repeat_ v n = Outcome.value r ∧
      r.length = n * v.length ∧
      r[j]? = (if j < n * v.length then v[j % v.length]? else none) ∧
      r = (List.replicate n v).flatten ∧
      xl_str.operatorMul v n = Outcome.value r) ∧
    xl_str.repeat_ v 0 = Outcome.value [] ∧
    xl_str.repeat_ v 1 = Outcome.value v ∧
    xl_str.operatorMul v n = xl_str.repeat_ v n := by
  have hr : xl_str.repeat_ v n = Outcome.value (xl_str.repeatLoop v n []) := by
    rw [repeat_eq, if_pos hfit]
  refine ⟨⟨_, hr, repeatLoop_length v n, ?_, ?_, hr⟩, ?_, ?_, rfl⟩
  · by_cases hj : j < n * v.length
    · rw [if_pos hj, repeatLoop_getElem? v n j hj]
    · rw [if_neg hj, List.getElem?_eq_none]
      rw [repeatLoop_length]
      omega
  · simp [repeatLoop_eq]
  · rw [repeat_eq, if_pos (by omega)]
    rfl
  · rw [repeat_eq, if_pos (by omega)]
    simp [xl_str.repeatLoop]

theorem repeat_contract_witness :
    "ab".toList.length < SIZE_MAX ∧ "ab".toList.length * 3 < SIZE_MAX ∧
    ((∃ r, xl_str.repeat_ "ab".toList 3 = Outcome.value r ∧
      r.length = 3 * "ab".toList.length ∧
      r[4]? = (if 4 < 3 * "ab".toList.length then "ab".toList[4 % "ab".toList.length]?
        else none) ∧
      r = (List.replicate 3 "ab".toList).flatten ∧
      xl_str.operatorMul "ab".toList 3 = Outcome.value r) ∧
    xl_str.repeat_ "ab".toList 0 = Outcome.value [] ∧
    xl_str.repeat_ "ab".toList 1 = Outcome.value "ab".toList ∧
    xl_str.operatorMul "ab".toList 3 = xl_str.repeat_ "ab".toList 3) ∧
    xl_str.repeat_ "ab".toList 3 = Outcome.value "ababab".toList :=
  ⟨by decide, by decide,
    repeat_contract "ab".toList 3 4 (by decide) (by decide), by decide⟩

/-- C18 when the byte count wraps: for a receiver of `2 ^ 33` bytes and
`count = 2 ^ 31` (a value of an `unsigned`), `size * count + 1` is `SIZE_MAX + 2`, the
block has one byte, the copy loop overruns it and no value of size `count * size` is
returned. -/
theorem repeat_overrun_on_wrap :
    2 ^ 31 < 2 ^ 32 ∧
    (List.replicate (2 ^ 33) 'a').length * 2 ^ 31 + 1 = SIZE_MAX + 2 ∧
    ((List.replicate (2 ^ 33) 'a').length * 2 ^ 31 + 1) % (SIZE_MAX + 1) = 1 ∧
    xl_str.repeat_ (List.replicate (2 ^ 33) 'a') (2 ^ 31) = Outcome.fault Fault.overrun ∧
    ¬ ∃ r, xl_str.repeat_ (List.replicate (2 ^ 33) 'a') (2 ^ 31) = Outcome.value r ∧
        r.length = 2 ^ 31 * (List.replicate (2 ^ 33) 'a').length := by
  have hlen : (List.replicate (2 ^ 33) 'a').length = 2 ^ 33 := List.length_replicate _ _
  have hov : xl_str.repeat_ (List.replicate (2 ^ 33) 'a') (2 ^ 31)
      = Outcome.fault Fault.overrun := by
    rw [repeat_eq, hlen, if_neg (by decide)]
  refine ⟨by decide, by rw [hlen]; decide, by rw [hlen]; decide, hov, ?_⟩
  rintro ⟨r, hr, _⟩
  rw [hov] at hr
  cases hr

/-- C19: `at(index)` is total.  For every content and every index `i` it returns the
`i`-th content byte when `i < size()` and the sentinel 0 when `i >= size()`, at
`i = size()` and at every larger index alike. -/
theorem operatorIndex_total (s pre post : Content) (c : Char) (i d : Nat) :
    xl_str.operatorIndex s i = (s[i]?).getD NUL ∧
    xl_str.operatorIndex (pre ++ c :: post) pre.length = c ∧
    xl_str.operatorIndex s (s.length + d) = NUL ∧
    xl_str.operatorIndex s s.length = NUL := by
  refine ⟨?_, ?_, ?_, ?_⟩
  · unfold xl_str.operatorIndex
    by_cases hi : i ≥ s.length
    · rw [if_pos hi, List.getElem?_eq_none hi]
      rfl
    · rw [if_neg hi, List.getD_eq_getElem?_getD]
  · unfold xl_str.operatorIndex
    rw [if_neg (by simp), List.getD_eq_getElem?_getD,
      List.getElem?_append_right (Nat.le_refl _), Nat.sub_self]
    simp
  · unfold xl_str.operatorIndex
    rw [if_pos (by omega)]
  · unfold xl_str.operatorIndex
    rw [if_pos (by omega)]

/-- C20: `split` with an empty token never returns.  For every content `s`, each pass of
the loop finds a zero-width match at the current scan position, appends an empty segment
and leaves the scan position unchanged, so no number of passes reaches the `break`; for
every non-empty token the loop reaches its `break`, within `size(s) + 1` passes. -/
theorem split_empty_token_never_returns (s : Content) (st : xl_str.SplitState)
    (fuel : Nat) (c : Char) (t : Content) :
    strstr (s.drop st.startptr) [] = some 0 ∧
    xl_str.splitPass s [] st = Sum.inl ⟨st.startptr, st.tmpxlstrs ++ [[]]⟩ ∧
    xl_str.splitLoop s [] fuel st = none ∧
    xl_str.split fuel s [] = none ∧
    (xl_str.split (s.length + 1 + fuel) s (c :: t)).isSome = true := by
  refine ⟨strstr_empty _, splitPass_empty s st, splitLoop_empty s fuel st,
    splitLoop_empty s fuel _, ?_⟩
  obtain ⟨xs, hx, _, _⟩ := split_returns (c :: t) (by simp) (s.length + 1 + fuel) s (by omega)
  rw [hx]
  rfl

/-! ## Segments of `split` -/

/-- The bytes before the leftmost occurrence of a non-empty token do not contain it. -/
theorem not_infix_take_of_strstr (s t : Content) (k : Nat) (ht : t ≠ [])
    (hs : strstr s t = some k) : ¬ t <:+: s.take k := by
  rintro ⟨pre, post, hpp⟩
  have hpos : 0 < t.length := List.length_pos.mpr ht
  have hlen : pre.length + t.length + post.length ≤ k := by
    have h1 := congrArg List.length hpp
    simp only [List.length_append, List.length_take] at h1
    omega
  have hsplit : s = pre ++ t ++ (post ++ s.drop k) := by
    conv_lhs => rw [← List.take_append_drop k s, ← hpp]
    simp [List.append_assoc]
  have hocc : occursAt t s pre.length := by
    rw [hsplit]
    simp [occursAt, List.append_assoc]
  exact (strstr_some s t k hs).2 pre.length (by omega) hocc

/-- With a non-empty token the loop of `split` returns a non-empty sequence, and no
segment of it contains the token. -/
theorem split_segments_free (token : Content) (ht : token ≠ []) (fuel : Nat) (s : Content)
    (hf : s.length < fuel) :
    ∃ xs, xl_str.split fuel s token = some xs ∧ xs ≠ [] ∧ ∀ x ∈ xs, ¬ token <:+: x := by
  induction fuel generalizing s with
  | zero => exact absurd hf (Nat.not_lt_zero _)
  | succ fuel ih =>
    cases hs : strstr s token with
    | none =>
      refine ⟨[s], split_of_none fuel s token hs, by simp, ?_⟩
      intro x hx
      rw [List.mem_singleton] at hx
      rw [hx]
      exact (strstr_eq_none_iff s token).mp hs
    | some k =>
      have hocc := (strstr_some s token k hs).1
      have hle := occursAt_le token s k ht hocc
      have hpos : 0 < token.length := List.length_pos.mpr ht
      have hlen : (s.drop (k + token.length)).length < fuel := by
        rw [List.length_drop]; omega
      obtain ⟨ys, hy, _, hfree⟩ := ih (s.drop (k + token.length)) hlen
      refine ⟨s.take k :: ys, ?_, by simp, ?_⟩
      · rw [split_of_some fuel s token k hs, hy]; rfl
      · intro x hx
        rcases List.mem_cons.mp hx with hx | hx
        · rw [hx]; exact not_infix_take_of_strstr s token k ht hs
        · exact hfree x hx

/-- C21: for every content `s` and every non-empty token `t`, `s.split(t)` returns (within
`size(s) + 1` passes of its loop) a non-empty sequence, and none of its segments contains
`t` as a substring. -/
theorem split_segments_without_token (s t : Content) (ht : t ≠ []) (fuel : Nat)
    (hf : s.length < fuel) :
    ∃ xs, xl_str.split fuel s t = some xs ∧ xs ≠ [] ∧ ∀ x ∈ xs, ¬ t <:+: x :=
  split_segments_free t ht fuel s hf

theorem split_segments_without_token_witness :
    "aa".toList ≠ [] ∧ "aaaba".toList.length < 6 ∧
    (∃ xs, xl_str.split 6 "aaaba".toList "aa".toList = some xs ∧ xs ≠ [] ∧
      ∀ x ∈ xs, ¬ "aa".toList <:+: x) ∧
    xl_str.split 6 "aaaba".toList "aa".toList = some [[], "aba".toList] :=
  ⟨by decide, by decide,
    split_segments_without_token "aaaba".toList "aa".toList (by decide) 6 (by decide),
    by decide⟩

/-! ## `isint` and `isfloat` -/

theorem mantissaLoop_digits (ds : Content) (hd : ∀ c ∈ ds, isdigit c = true) (b : Bool) :
    xl_str.mantissaLoop isdigit 'e' 'E' ds b = some [] := by
  induction ds generalizing b with
  | nil => rfl
  | cons c cs ih =>
    have hc : isdigit c = true := hd c (List.mem_cons_self c cs)
    have he : ¬ (c = 'e' ∨ c = 'E') := by
      rintro (e | e) <;> · subst e; revert hc; decide
    have hdot : ¬ c = '.' := by
      intro e; subst e; revert hc; decide
    rw [xl_str.mantissaLoop, if_neg he, if_neg hdot]
    simp only [hc, Bool.not_true, Bool.false_eq_true, if_false]
    exact ih (fun x hx => hd x (List.mem_cons_of_mem c hx)) b

theorem strstr_hex_mark_digits (ds : Content) (hd : ∀ c ∈ ds, isdigit c = true) (x : Char)
    (hx : isdigit x = false) : ¬ strstr ds ['0', x] = some 0 := by
  intro h
  have hocc := (strstr_some ds ['0', x] 0 h).1
  have hmem : x ∈ ds := by
    have hsplit := occursAt_split ['0', x] ds 0 hocc
    rw [hsplit]
    simp
  rw [hd x hmem] at hx
  cases hx

/-- A non-empty run of decimal digits, with or without a leading `-`, passes `isfloat`. -/
theorem isfloat_of_digits (ds : Content) (hne : ds ≠ []) (hd : ∀ c ∈ ds, isdigit c = true) :
    xl_str.isfloat ds = true ∧ xl_str.isfloat ('-' :: ds) = true := by
  have hx1 := strstr_hex_mark_digits ds hd 'x' (by decide)
  have hx2 := strstr_hex_mark_digits ds hd 'X' (by decide)
  have hm := mantissaLoop_digits ds hd false
  cases ds with
  | nil => exact absurd rfl hne
  | cons c cs =>
    have hc : isdigit c = true := hd c (List.mem_cons_self c cs)
    have hminus : ¬ c = '-' := by
      intro e; subst e; revert hc; decide
    have hsome : ¬ (some c = some '-') := fun e => hminus (Option.some.inj e)
    have he : ¬ (c = 'e' ∨ c = 'E') := by
      rintro (e | e) <;> · subst e; revert hc; decide
    constructor
    · unfold xl_str.isfloat
      simp only [List.head?_cons, hsome, if_false, hx1, hx2, decide_False, Bool.or_self,
        Bool.false_eq_true, he, hm]
    · unfold xl_str.isfloat
      simp only [List.head?_cons, if_true, List.tail_cons, hx1, hx2, decide_False,
        Bool.or_self, Bool.false_eq_true, if_false, he, hm]

/-- C22: every string accepted by `is_int` is also accepted by `is_float`; hence
`is_numeric()`, which is `is_int() || is_float()`, returns the same result as `is_float()`
on every input. -/
theorem isint_implies_isfloat (s : Content) :
    (xl_str.isint s = true → xl_str.isfloat s = true) ∧
    xl_str.isnumeric s = xl_str.isfloat s := by
  have himp : xl_str.isint s = true → xl_str.isfloat s = true := by
    intro h
    obtain ⟨ds, hne, hd, hs | hs⟩ := (isint_iff s).mp h
    · rw [hs]
      exact (isfloat_of_digits ds hne (fun c hc => (isdigit_iff c).mpr (hd c hc))).1
    · rw [hs]
      exact (isfloat_of_digits ds hne (fun c hc => (isdigit_iff c).mpr (hd c hc))).2
  refine ⟨himp, ?_⟩
  unfold xl_str.isnumeric
  cases hi : xl_str.isint s with
  | false => simp
  | true => simp [himp hi]

theorem isint_implies_isfloat_witness :
    xl_str.isint "-42".toList = true ∧ xl_str.isfloat "-42".toList = true ∧
    xl_str.isnumeric "-42".toList = xl_str.isfloat "-42".toList ∧
    xl_str.isint "1e5".toList = false ∧ xl_str.isfloat "1e5".toList = true ∧
    xl_str.isnumeric "1e5".toList = true :=
  ⟨by decide, (isint_implies_isfloat "-42".toList).1 (by decide),
    (isint_implies_isfloat "-42".toList).2, by decide, by decide, by decide⟩

/-! ## The three trim methods -/

theorem trimleftLoop_eq (s : Content) :
    xl_str.trimleftLoop s = some (xl_str.trimStartLoop s) := by
  induction s with
  | nil =>
    have h : isspace NUL = false := by decide
    simp [xl_str.trimleftLoop, xl_str.trimStartLoop, h]
  | cons c cs ih =>
    by_cases hc : isspace c = true
    · simp [xl_str.trimleftLoop, xl_str.trimStartLoop, hc, ih]
    · simp [xl_str.trimleftLoop, xl_str.trimStartLoop, hc]

theorem trimrightLoop_eq (s : Content) (n : Nat) :
    xl_str.trimrightLoop s n = xl_str.trimEndLoop s n := by
  induction n with
  | zero => rfl
  | succ n ih => simp only [xl_str.trimrightLoop, xl_str.trimEndLoop, ih]

theorem trimStartLoop_all (s : Content) (hall : ∀ c ∈ s, isspace c = true) :
    xl_str.trimStartLoop s = s.length := by
  obtain ⟨a1, _, a3⟩ := trimStartLoop_spec s
  by_contra hne
  have hlt : xl_str.trimStartLoop s < s.length := by omega
  have := a3 hlt
  rw [hall _ (getD_mem s _ hlt)] at this
  cases this

theorem trimEndLoop_all (s : Content) (hall : ∀ c ∈ s, isspace c = true) :
    xl_str.trimEndLoop s s.length = -1 := by
  obtain ⟨b1, b2, _, b4⟩ := trimEndLoop_spec s s.length
  by_contra hne
  have hnn : 0 ≤ xl_str.trimEndLoop s s.length := by omega
  have := b4 hnn
  rw [hall _ (getD_mem s _ (by omega))] at this
  cases this

theorem trimStartLoop_first (s : Content) (i : Nat) (hi : firstNonSpace s i) :
    xl_str.trimStartLoop s = i := by
  obtain ⟨hlt, hfirst, hbefore⟩ := hi
  obtain ⟨a1, a2, a3⟩ := trimStartLoop_spec s
  rcases Nat.lt_trichotomy (xl_str.trimStartLoop s) i with h | h | h
  · have h5 := a3 (by omega)
    rw [hbefore _ h] at h5
    cases h5
  · exact h
  · have h5 := a2 i h
    rw [hfirst] at h5
    cases h5

theorem trimEndLoop_last (s : Content) (j : Nat) (hj : lastNonSpace s j) :
    xl_str.trimEndLoop s s.length = (j : Int) := by
  obtain ⟨hlt, hlast, hafter⟩ := hj
  obtain ⟨b1, b2, b3, b4⟩ := trimEndLoop_spec s s.length
  rcases Int.lt_trichotomy (xl_str.trimEndLoop s s.length) (j : Int) with h | h | h
  · have h5 := b3 j h hlt
    rw [hlast] at h5
    cases h5
  · exact h
  · have hnn : 0 ≤ xl_str.trimEndLoop s s.length := by omega
    have h5 := b4 hnn
    rw [hafter _ (by omega) (by omega)] at h5
    cases h5

/-- A string is all whitespace, or it has a first and a last byte that is not. -/
theorem space_cases (s : Content) :
    (∀ c ∈ s, isspace c = true) ∨ ∃ i j, firstNonSpace s i ∧ lastNonSpace s j := by
  obtain ⟨a1, a2, a3⟩ := trimStartLoop_spec s
  obtain ⟨b1, b2, b3, b4⟩ := trimEndLoop_spec s s.length
  by_cases hlt : xl_str.trimStartLoop s < s.length
  · right
    have hns := a3 hlt
    have hnn : 0 ≤ xl_str.trimEndLoop s s.length := by
      by_contra hneg
      have := b3 (xl_str.trimStartLoop s) (by omega) hlt
      rw [hns] at this
      cases this
    refine ⟨xl_str.trimStartLoop s, (xl_str.trimEndLoop s s.length).toNat,
      ⟨hlt, hns, a2⟩, ⟨by omega, b4 hnn, ?_⟩⟩
    intro k hk hjk
    exact b3 k (by omega) hk
  · left
    intro c hc
    obtain ⟨k, hk, rfl⟩ := List.getElem_of_mem hc
    have := a2 k (by omega)
    rwa [List.getD_eq_getElem?_getD, List.getElem?_eq_getElem hk] at this

theorem getD_drop (s : Content) (i k : Nat) : (s.drop i).getD k NUL = s.getD (i + k) NUL := by
  simp only [List.getD_eq_getElem?_getD, List.getElem?_drop]

theorem getD_take (s : Content) (m k : Nat) (hk : k < m) :
    (s.take m).getD k NUL = s.getD k NUL := by
  simp only [List.getD_eq_getElem?_getD, List.getElem?_take_of_lt hk]

theorem trimleft_all (s : Content) (hall : ∀ c ∈ s, isspace c = true) :
    xl_str.trimleft s = some [] := by
  simp [xl_str.trimleft, trimleftLoop_eq, trimStartLoop_all s hall]

theorem trimleft_first (s : Content) (i : Nat) (hi : firstNonSpace s i) :
    xl_str.trimleft s = some (s.drop i) := by
  simp [xl_str.trimleft, trimleftLoop_eq, trimStartLoop_first s i hi]

theorem trimright_all (s : Content) (hall : ∀ c ∈ s, isspace c = true) :
    xl_str.trimright s = [] := by
  simp [xl_str.trimright, trimrightLoop_eq, trimEndLoop_all s hall]

theorem trimright_last (s : Content) (j : Nat) (hj : lastNonSpace s j) :
    xl_str.trimright s = s.take (j + 1) := by
  simp only [xl_str.trimright, trimrightLoop_eq, trimEndLoop_last s j hj]
  have : ((j : Int) + 1).toNat = j + 1 := by omega
  rw [this]

theorem first_le_last (s : Content) (i j : Nat) (hi : firstNonSpace s i)
    (hj : lastNonSpace s j) : i ≤ j := by
  by_contra hlt
  have := hi.2.2 j (by omega)
  rw [hj.2.1] at this
  cases this

theorem trim_of_first_last (s : Content) (i j : Nat) (hi : firstNonSpace s i)
    (hj : lastNonSpace s j) : xl_str.trim s = (s.drop i).take (j + 1 - i) :=
  trim_between s i j hi.1 hj.1 hi.2.1 hi.2.2 hj.2.1 hj.2.2

/-- The three trim methods agree, and `trim` leaves its own result unchanged. -/
theorem trim_compose (v : Content) :
    (xl_str.trimleft v).map xl_str.trimright = some (xl_str.trim v) ∧
    xl_str.trimleft (xl_str.trimright v) = some (xl_str.trim v) ∧
    xl_str.trim (xl_str.trim v) = xl_str.trim v := by
  have hnil : ∀ c ∈ ([] : Content), isspace c = true := fun c hc => absurd hc (List.not_mem_nil c)
  rcases space_cases v with hall | ⟨i, j, hi, hj⟩
  · rw [trimleft_all v hall, trimright_all v hall, trim_all_space v hall]
    exact ⟨by rw [Option.map_some', trimright_all [] hnil], trimleft_all [] hnil,
      trim_all_space [] hnil⟩
  · have hij := first_le_last v i j hi hj
    obtain ⟨hi1, hi2, hi3⟩ := hi
    obtain ⟨hj1, hj2, hj3⟩ := hj
    have htrim := trim_of_first_last v i j ⟨hi1, hi2, hi3⟩ ⟨hj1, hj2, hj3⟩
    refine ⟨?_, ?_, ?_⟩
    · rw [trimleft_first v i ⟨hi1, hi2, hi3⟩, Option.map_some', htrim]
      have hl : lastNonSpace (v.drop i) (j - i) := by
        refine ⟨by rw [List.length_drop]; omega, ?_, ?_⟩
        · rw [getD_drop]
          have : i + (j - i) = j := by omega
          rw [this]; exact hj2
        · intro k hk hjk
          rw [List.length_drop] at hk
          rw [getD_drop]
          exact hj3 (i + k) (by omega) (by omega)
      rw [trimright_last (v.drop i) (j - i) hl]
      have : j - i + 1 = j + 1 - i := by omega
      rw [this]
    · rw [trimright_last v j ⟨hj1, hj2, hj3⟩, htrim]
      have hf : firstNonSpace (v.take (j + 1)) i := by
        refine ⟨by rw [List.length_take]; omega, ?_, ?_⟩
        · rw [getD_take v (j + 1) i (by omega)]; exact hi2
        · intro k hk
          rw [getD_take v (j + 1) k (by omega)]
          exact hi3 k hk
      rw [trimleft_first (v.take (j + 1)) i hf, List.drop_take]
    · rw [htrim]
      have hlen : ((v.drop i).take (j + 1 - i)).length = j + 1 - i := by
        rw [List.length_take, List.length_drop]; omega
      have hf : firstNonSpace ((v.drop i).take (j + 1 - i)) 0 := by
        refine ⟨by omega, ?_, fun k hk => absurd hk (Nat.not_lt_zero k)⟩
        rw [getD_take _ _ 0 (by omega), getD_drop]
        exact hi2
      have hl : lastNonSpace ((v.drop i).take (j + 1 - i)) (j - i) := by
        refine ⟨by omega, ?_, fun k hk hjk => by omega⟩
        rw [getD_take _ _ (j - i) (by omega), getD_drop]
        have : i + (j - i) = j := by omega
        rw [this]; exact hj2
      rw [trim_of_first_last _ 0 (j - i) hf hl, List.drop_zero]
      exact List.take_of_length_le (by omega)

/-- C23: the three trim operations are consistent.  For every content `v`, `v.trim()`
equals `v.trimleft().trimright()` and also `v.trimright().trimleft()` (the loop of
`trimleft` stops at the terminator, so `trimleft` returns a value); consequently `trim` is
idempotent, `v.trim().trim() == v.trim()`. -/
theorem trim_consistent (v : Content) :
    (xl_str.trimleft v).map xl_str.trimright = some (xl_str.trim v) ∧
    xl_str.trimleft (xl_str.trimright v) = some (xl_str.trim v) ∧
    xl_str.trim (xl_str.trim v) = xl_str.trim v :=
  trim_compose v

/-! ## Adjacent slices -/

theorem slice_append (v : Content) (a b c : Nat) (hab : a ≤ b) (hbc : b ≤ c) :
    xl_str.slice v a b ++ xl_str.slice v b c = xl_str.slice v a c := by
  rw [slice_eq, slice_eq, slice_eq]
  by_cases hb : b ≤ v.length
  · have h1 : min b v.length - a = b - a := by omega
    have h2 : v.drop b = (v.drop a).drop (b - a) := by
      rw [List.drop_drop]
      congr 1
      omega
    have h3 : min c v.length - a = (b - a) + (min c v.length - b) := by omega
    rw [h1, h2, h3, List.take_add]
  · have h1 : v.drop b = [] := List.drop_eq_nil_of_le (by omega)
    have h2 : min b v.length = min c v.length := by omega
    rw [h1, h2]
    simp

theorem slice_whole (v : Content) (d : Nat) : xl_str.slice v 0 (v.length + d) = v := by
  rw [slice_eq]
  have : min (v.length + d) v.length - 0 = v.length := by omega
  rw [this, List.drop_zero, List.take_length]

theorem NUL_not_mem_slice (v : Content) (a b : Nat) (hv : NUL ∉ v) :
    NUL ∉ xl_str.slice v a b := by
  rw [slice_eq]
  intro h
  exact hv (List.mem_of_mem_drop (List.mem_of_mem_take h))

/-- C24: adjacent slices compose.  For every content `v` (a C string, so without a NUL
byte) and all positions `a <= b <= c`, positions beyond `size()` included,
`v.slice(a, b).concat(v.slice(b, c))` has the content of `v.slice(a, c)`; in particular
`v.slice(0, n)` equals `v` for every `n >= size()`. -/
theorem slice_concat_adjacent (junk : Char) (v : Content) (a b c d : Nat) (hab : a ≤ b)
    (hbc : b ≤ c) (hv : NUL ∉ v) :
    xl_str.content
        (xl_str.concat junk (cstr (xl_str.slice v a b)) (cstr (xl_str.slice v b c)))
      = xl_str.slice v a c ∧
    xl_str.concat junk (cstr (xl_str.slice v a b)) (cstr (xl_str.slice v b c))
      = cstr (xl_str.slice v a c) ∧
    xl_str.slice v 0 (v.length + d) = v := by
  have h1 := NUL_not_mem_slice v a b hv
  have h2 := NUL_not_mem_slice v b c hv
  have h3 := NUL_not_mem_slice v a c hv
  rw [concat_cstr junk _ _ h1 h2, slice_append v a b c hab hbc]
  exact ⟨content_cstr _ h3, rfl, slice_whole v d⟩

theorem slice_concat_adjacent_witness :
    2 ≤ 4 ∧ 4 ≤ 9 ∧ NUL ∉ "abcdef".toList ∧
    (xl_str.content
        (xl_str.concat '?' (cstr (xl_str.slice "abcdef".toList 2 4))
          (cstr (xl_str.slice "abcdef".toList 4 9)))
      = xl_str.slice "abcdef".toList 2 9 ∧
    xl_str.concat '?' (cstr (xl_str.slice "abcdef".toList 2 4))
        (cstr (xl_str.slice "abcdef".toList 4 9))
      = cstr (xl_str.slice "abcdef".toList 2 9) ∧
    xl_str.slice "abcdef".toList 0 ("abcdef".toList.length + 3) = "abcdef".toList) ∧
    xl_str.slice "abcdef".toList 2 9 = "cdef".toList ∧
    xl_str.slice "abcdef".toList 7 8 ++ xl_str.slice "abcdef".toList 8 9
      = xl_str.slice "abcdef".toList 7 9 :=
  ⟨by decide, by decide, by decide,
    slice_concat_adjacent '?' "abcdef".toList 2 4 9 3 (by decide) (by decide) (by decide),
    by decide, by decide⟩
